import Mathlib

/-!
Verification development for the PDF form-filling server's text-layout and
pagination core (`src/server.js`).

Strings are modelled as lists of characters (`Str`), JavaScript numbers as
exact rationals (`ℚ`), and a JavaScript number that may be `NaN`/`±Infinity`
as `Option ℚ` (`none` standing for a non-finite value, so that the source's
`Number.isFinite` guards become `Option` matches).  A PDF font is modelled by
its per-character advance widths: `widthOfTextAtSize` is the scaled sum of the
character widths, which is `pdf-lib`'s measurement for standard fonts (kerning
omitted).  `Date` objects are modelled as a count of milliseconds, with the
local timezone taken to be a fixed offset (UTC); the civil-calendar
conversions follow the proleptic Gregorian calendar, as JavaScript's `Date`
does.
-/

namespace PdfGen

/-- Strings as lists of characters. -/
abbrev Str := List Char

/-- The character class of the JavaScript regex `\s` (ASCII part), which is
what `String.prototype.trim` and `split(/\s+/)` use on the inputs at hand. -/
def isWs (c : Char) : Bool :=
  c == ' ' || c == '\t' || c == '\n' || c == '\r' || c == '\x0b' || c == '\x0c'

/-- `String.prototype.trim`. -/
def trim (s : Str) : Str :=
  ((s.dropWhile isWs).reverse.dropWhile isWs).reverse

/-- `s.trim()` is falsy, i.e. the string is blank (empty or all-whitespace). -/
def isBlank (s : Str) : Bool :=
  (trim s).isEmpty

/-- Worker for `splitWs`: accumulated tokens, token under construction,
remaining input. -/
def splitWsGo : Str → List Str × Str → List Str
  | [], (acc, cur) => if cur.isEmpty then acc else acc ++ [cur]
  | c :: rest, (acc, cur) =>
    if isWs c then splitWsGo rest (if cur.isEmpty then (acc, []) else (acc ++ [cur], []))
    else splitWsGo rest (acc, cur ++ [c])

/-- `s.split(/\s+/)` as applied in the source: it is only ever applied to a
trimmed string, on which the regex split yields exactly the maximal
whitespace-free tokens in order. -/
def splitWs (s : Str) : List Str :=
  splitWsGo s ([], [])

/-- Joins tokens with single spaces (the shape of a wrapped line). -/
def unwords : List Str → Str
  | [] => []
  | [t] => t
  | t :: rest => t ++ ' ' :: unwords rest

/-- `s.split(/\r?\n/)`, which on every input coincides with
`s.replace(/\r\n/g, '\n').split('\n')` (both forms occur in the source):
split at each `'\n'`, consuming one `'\r'` immediately before it. -/
def splitRN : Str → List Str
  | [] => [[]]
  | '\r' :: '\n' :: rest => [] :: splitRN rest
  | '\n' :: rest => [] :: splitRN rest
  | c :: rest =>
    match splitRN rest with
    | [] => [[c]]
    | l :: ls => (c :: l) :: ls

/-- `lines.join('\n')`. -/
def joinNL : List Str → Str
  | [] => []
  | [l] => l
  | l :: ls => l ++ '\n' :: joinNL ls

/-- `stripTrailingEmptyLines` (server.js:319): pop blank lines from the end. -/
def stripTrailingEmptyLines (lines : List Str) : List Str :=
  (lines.reverse.dropWhile (fun l => (trim l).isEmpty)).reverse

/-- `stripLeadingEmptyLines` (server.js:327): drop blank lines from the front. -/
def stripLeadingEmptyLines (lines : List Str) : List Str :=
  lines.dropWhile (fun l => (trim l).isEmpty)

/-- A PDF font, reduced to what the layout code consumes: a nonnegative
advance width per character. -/
structure Font where
  charWidth : Char → ℚ
  charWidth_nonneg : ∀ c, 0 ≤ charWidth c

/-- `font.widthOfTextAtSize(text, size)`: scaled sum of character widths. -/
def Font.widthOfTextAtSize (f : Font) (text : Str) (size : ℚ) : ℚ :=
  (text.map f.charWidth).sum * size

/-- Loop body of `splitLongWord`'s character walk (server.js:344-352). -/
def splitLongWordStep (f : Font) (fontSize maxWidth : ℚ)
    (st : List Str × Str) (c : Char) : List Str × Str :=
  let candidate := st.2 ++ [c]
  if st.2.isEmpty ∨ f.widthOfTextAtSize candidate fontSize ≤ maxWidth then (st.1, candidate)
  else (st.1 ++ [st.2], [c])

/-- `splitLongWord` (server.js:335): split a word that is too wide on its own
into fragments, character by character.  A `none` font models a missing font;
a `none` width models a non-finite `maxWidth`. -/
def splitLongWord (word : Str) (font : Option Font) (fontSize : ℚ)
    (maxWidth : Option ℚ) : List Str :=
  if word.isEmpty then [[]]
  else
    match font, maxWidth with
    | some f, some w =>
      if w ≤ 0 then [word]
      else if f.widthOfTextAtSize word fontSize ≤ w then [word]
      else
        let r := word.foldl (splitLongWordStep f fontSize w) ([], [])
        let parts := if r.2.isEmpty then r.1 else r.1 ++ [r.2]
        if parts.isEmpty then [word] else parts
    | _, _ => [word]

/-- One segment step of the word wrapper (server.js:378-390).  `isFirst` is
`segmentIndex === 0`, which decides whether a joining space is inserted. -/
def wrapAddSegment (f : Font) (fontSize maxWidth : ℚ) (isFirst : Bool)
    (st : List Str × Str) (segment : Str) : List Str × Str :=
  if st.2.isEmpty then (st.1, segment)
  else
    let candidate := st.2 ++ (if isFirst then [' '] else []) ++ segment
    if f.widthOfTextAtSize candidate fontSize ≤ maxWidth then (st.1, candidate)
    else (st.1 ++ [st.2], segment)

/-- One word step of the word wrapper (server.js:375-391). -/
def wrapAddWord (f : Font) (fontSize maxWidth : ℚ)
    (st : List Str × Str) (word : Str) : List Str × Str :=
  if word.isEmpty then st
  else
    match splitLongWord word (some f) fontSize (some maxWidth) with
    | [] => st
    | s0 :: rest =>
      rest.foldl (wrapAddSegment f fontSize maxWidth false)
        (wrapAddSegment f fontSize maxWidth true st s0)

/-- One paragraph of `wrapTextToWidth` (server.js:368-394): a blank paragraph
yields one empty line, otherwise the paragraph's words are wrapped greedily
starting from an empty current line. -/
def wrapParagraph (f : Font) (fontSize maxWidth : ℚ)
    (lines : List Str) (paragraph : Str) : List Str :=
  if (trim paragraph).isEmpty then lines ++ [[]]
  else
    let words := splitWs (trim paragraph)
    let st := words.foldl (wrapAddWord f fontSize maxWidth) (lines, [])
    if st.2.isEmpty then st.1 else st.1 ++ [st.2]

/-- `wrapTextToWidth` (server.js:360). -/
def wrapTextToWidth (text : Str) (font : Option Font) (fontSize : ℚ)
    (maxWidth : Option ℚ) : List Str :=
  if text.isEmpty then [[]]
  else
    match font, maxWidth with
    | some f, some w =>
      if w ≤ 0 then splitRN text
      else stripTrailingEmptyLines ((splitRN text).foldl (wrapParagraph f fontSize w) [])
    | _, _ => splitRN text

/-- `TEXT_FIELD_INNER_PADDING` (server.js:302). -/
def TEXT_FIELD_INNER_PADDING : ℚ := 2

/-- The rectangle of an AcroForm text-field widget (`widget.getRectangle()`). -/
structure Widget where
  x1 : ℚ
  y1 : ℚ
  x2 : ℚ
  y2 : ℚ
deriving Repr, DecidableEq

/-- The result record of `layoutTextForField`.  `fieldLines`/`overflowLines`
carry the two line lists the source computes and then joins into the
`fieldText`/`overflowText` strings (`fieldText = joinNL fieldLines`, and in
the single-line branch `joinNL (take 1 lines)` is exactly the source's
`firstLine` destructuring with its `''` default). -/
structure FieldLayoutResult where
  fieldLines : List Str
  overflowLines : List Str
  fieldText : Str
  overflowText : Str
  overflowDetected : Bool
  totalLines : ℕ
  displayedLines : ℕ
  lineHeight : ℚ
  appliedFontSize : ℚ
deriving Repr, DecidableEq

/-- `buildLayout` (server.js:431-462), the closure inside
`layoutTextForField`, at one candidate font size. -/
def buildFieldLayout (text : Str) (f : Font) (multiline : Bool)
    (lineHeightMultiplier width height : ℚ) (candidateSize : ℚ) : FieldLayoutResult :=
  let candidateLineHeight :=
    candidateSize * (if lineHeightMultiplier = 0 then 6/5 else lineHeightMultiplier)
  let wrappedLines := wrapTextToWidth text (some f) candidateSize (some width)
  let trimmedLines := stripTrailingEmptyLines wrappedLines
  let maxLines : ℕ := (max 1 ⌊height / max candidateLineHeight 1⌋).toNat
  if multiline then
    let fieldLines := trimmedLines.take maxLines
    let overflowLines := stripLeadingEmptyLines (trimmedLines.drop maxLines)
    { fieldLines := fieldLines
      overflowLines := overflowLines
      fieldText := joinNL fieldLines
      overflowText := trim (joinNL overflowLines)
      overflowDetected := overflowLines.any (fun line => !(trim line).isEmpty)
      totalLines := trimmedLines.length
      displayedLines := fieldLines.length
      lineHeight := candidateLineHeight
      appliedFontSize := candidateSize }
  else
    let fieldLines := trimmedLines.take 1
    let remaining := stripLeadingEmptyLines (trimmedLines.drop 1)
    { fieldLines := fieldLines
      overflowLines := remaining
      fieldText := joinNL fieldLines
      overflowText := trim (joinNL remaining)
      overflowDetected := remaining.any (fun line => !(trim line).isEmpty)
      totalLines := trimmedLines.length
      displayedLines := 1
      lineHeight := candidateLineHeight
      appliedFontSize := candidateSize }

/-- The shrink `while` loop of `layoutTextForField` (server.js:464-471),
instrumented to also return the list of candidate sizes tried after the
initial one.  One recursive call per loop iteration; the two exits are the
loop guard and the inner `break`. -/
def shrinkGo (build : ℚ → FieldLayoutResult) (minFontSize : ℚ)
    (w : ℚ) (layout : FieldLayoutResult) : List ℚ × FieldLayoutResult :=
  if h : layout.overflowDetected = true ∧ minFontSize < w then
    let w2 := max minFontSize (w - 1/2)
    let layout2 := build w2
    if layout2.overflowDetected = false ∨ w2 ≤ minFontSize then ([w2], layout2)
    else
      let r := shrinkGo build minFontSize w2 layout2
      (w2 :: r.1, r.2)
  else ([], layout)
termination_by (⌈(w - minFontSize) * 2⌉).toNat
decreasing_by
  rename_i hcont
  push_neg at hcont
  have hw2 : minFontSize < max minFontSize (w - 1/2) := hcont.2
  have hstep : max minFontSize (w - 1/2) = w - 1/2 := by
    rcases max_cases minFontSize (w - 1/2) with hmx | hmx
    · exact absurd (hmx.1 ▸ hw2) (lt_irrefl _)
    · exact hmx.1
  rw [hstep]
  have h1 : (1 : ℚ) < (w - minFontSize) * 2 := by
    have : minFontSize < w - 1/2 := hstep ▸ hw2
    linarith
  have hceil1 : (1 : ℤ) ≤ ⌈(w - minFontSize) * 2⌉ := Int.ceil_pos.mpr (by linarith [h1])
  have heq : (w - 1/2 - minFontSize) * 2 = (w - minFontSize) * 2 - 1 := by ring
  rw [heq, Int.ceil_sub_one]
  omega

/-- The option object taken by `layoutTextForField` (server.js:401-409), with
the source's defaults (`DEFAULT_TEXT_FIELD_STYLE`, server.js:107). -/
structure FieldLayoutOptions where
  value : Str
  font : Option Font
  fontSize : ℚ := 10
  multiline : Bool := false
  lineHeightMultiplier : ℚ := 6/5
  widget : Option Widget
  minFontSize : ℚ := 7

/-- `layoutTextForField` (server.js:400-475). -/
def layoutTextForField (o : FieldLayoutOptions) : FieldLayoutResult :=
  match o.font, o.widget with
  | some f, some wd =>
    let width := max (wd.x2 - wd.x1 - TEXT_FIELD_INNER_PADDING * 2) 1
    let height := max (wd.y2 - wd.y1 - TEXT_FIELD_INNER_PADDING * 2) o.fontSize
    let build := buildFieldLayout o.value f o.multiline o.lineHeightMultiplier width height
    (shrinkGo build o.minFontSize o.fontSize (build o.fontSize)).2
  | _, _ =>
    let lines := if o.value.isEmpty then [[]] else splitRN o.value
    { fieldLines := lines
      overflowLines := []
      fieldText := joinNL lines
      overflowText := []
      overflowDetected := false
      totalLines := lines.length
      displayedLines := lines.length
      lineHeight := o.fontSize * o.lineHeightMultiplier
      appliedFontSize := o.fontSize }

/-- The full list of candidate font sizes tried by `layoutTextForField`'s
shrink loop, the initial `policy.fontSize` included. -/
def layoutTextForFieldTrace (o : FieldLayoutOptions) : List ℚ :=
  match o.font, o.widget with
  | some f, some wd =>
    let width := max (wd.x2 - wd.x1 - TEXT_FIELD_INNER_PADDING * 2) 1
    let height := max (wd.y2 - wd.y1 - TEXT_FIELD_INNER_PADDING * 2) o.fontSize
    let build := buildFieldLayout o.value f o.multiline o.lineHeightMultiplier width height
    o.fontSize :: (shrinkGo build o.minFontSize o.fontSize (build o.fontSize)).1
  | _, _ => [o.fontSize]

/-- The record returned by `layoutTextForWidth` (server.js:477). -/
structure WidthLayoutResult where
  lines : List Str
  fontSize : ℚ
  lineHeight : ℚ
  lineCount : ℕ
deriving Repr, DecidableEq

/-- The intermediate record of `layoutTextForWidth`'s `computeLayout`
closure, including its `fits` flag. -/
structure WidthLayoutCandidate where
  lines : List Str
  fontSize : ℚ
  lineHeight : ℚ
  lineCount : ℕ
  fits : Bool
deriving Repr, DecidableEq

/-- `computeLayout` (server.js:500-515), the closure inside
`layoutTextForWidth`, at one candidate size. -/
def computeWidthLayout (text : Str) (f : Font) (lineHeightMultiplier maxWidth : ℚ)
    (size : ℚ) : WidthLayoutCandidate :=
  let candidateLines := wrapTextToWidth text (some f) size (some maxWidth)
  let normalizedLines := if candidateLines.isEmpty then [[]] else candidateLines
  let maxLineWidth :=
    normalizedLines.foldl (fun m line => max m (f.widthOfTextAtSize line size)) 0
  { lines := normalizedLines
    fontSize := size
    lineHeight := size * lineHeightMultiplier
    lineCount := normalizedLines.length
    fits := maxLineWidth ≤ maxWidth + 1/10 }

/-- The shrink `while` loop of `layoutTextForWidth` (server.js:517-523);
same shape as `shrinkGo`, with the `fits` test in place of overflow. -/
def widthShrinkGo (compute : ℚ → WidthLayoutCandidate) (minFontSize : ℚ)
    (w : ℚ) (layout : WidthLayoutCandidate) : WidthLayoutCandidate :=
  if h : layout.fits = false ∧ minFontSize < w then
    let w2 := max minFontSize (w - 1/2)
    let layout2 := compute w2
    if layout2.fits = true ∨ w2 ≤ minFontSize then layout2
    else widthShrinkGo compute minFontSize w2 layout2
  else layout
termination_by (⌈(w - minFontSize) * 2⌉).toNat
decreasing_by
  rename_i hcont
  push_neg at hcont
  have hw2 : minFontSize < max minFontSize (w - 1/2) := hcont.2
  have hstep : max minFontSize (w - 1/2) = w - 1/2 := by
    rcases max_cases minFontSize (w - 1/2) with hmx | hmx
    · exact absurd (hmx.1 ▸ hw2) (lt_irrefl _)
    · exact hmx.1
  rw [hstep]
  have h1 : (1 : ℚ) < (w - minFontSize) * 2 := by
    have : minFontSize < w - 1/2 := hstep ▸ hw2
    linarith
  have hceil1 : (1 : ℤ) ≤ ⌈(w - minFontSize) * 2⌉ := Int.ceil_pos.mpr (by linarith [h1])
  have heq : (w - 1/2 - minFontSize) * 2 = (w - minFontSize) * 2 - 1 := by ring
  rw [heq, Int.ceil_sub_one]
  omega

/-- The early return of `layoutTextForWidth` when no measurer is available
(server.js:488-496). -/
def widthLayoutFallback (value : Str) (fontSize lineHeightMultiplier : ℚ) :
    WidthLayoutResult :=
  let lines := if value.isEmpty then [[]] else splitRN value
  { lines := lines
    fontSize := fontSize
    lineHeight := fontSize * lineHeightMultiplier
    lineCount := if lines.length = 0 then 1 else lines.length }

/-- `layoutTextForWidth` (server.js:477-532): shrink-to-fit against a width
only (table cells / appendix pages). -/
def layoutTextForWidth (value : Str) (font : Option Font)
    (fontSize minFontSize lineHeightMultiplier : ℚ) (maxWidth : Option ℚ) :
    WidthLayoutResult :=
  match font, maxWidth with
  | some f, some w =>
    if w ≤ 0 then widthLayoutFallback value fontSize lineHeightMultiplier
    else
      let compute := computeWidthLayout value f lineHeightMultiplier w
      let c := widthShrinkGo compute minFontSize fontSize (compute fontSize)
      let finalLines := stripTrailingEmptyLines c.lines
      { lines := finalLines
        fontSize := c.fontSize
        lineHeight := c.lineHeight
        lineCount := if finalLines.length = 0 then 1 else finalLines.length }
  | _, _ => widthLayoutFallback value fontSize lineHeightMultiplier

/-- The record returned by `determineBreakRequirement`. -/
structure BreakInfo where
  code : String
  minutes : ℚ
  label : String
deriving Repr, DecidableEq

/-- `determineBreakRequirement` (server.js:864, the second definition, which
shadows the one at line 624 and is the active one).  The argument is `none`
for a non-finite duration (`!Number.isFinite(minutes)`). -/
def determineBreakRequirement (minutes : Option ℚ) : BreakInfo :=
  match minutes with
  | none => { code := "UNKNOWN", minutes := 0, label := "Pending (set arrival & departure)" }
  | some m =>
    if m ≤ 0 then
      { code := "UNKNOWN", minutes := 0, label := "Pending (set arrival & departure)" }
    else if m ≤ 6 * 60 then
      { code := "NONE", minutes := 0, label := "No mandatory break (<=6h)" }
    else if m ≤ 9 * 60 then
      { code := "MIN30", minutes := 30, label := ">=30m (6-9h, 2x15m allowed)" }
    else
      { code := "MIN45", minutes := 45, label := ">=45m (>9h)" }

/-- Days since 1970-01-01 of a civil date (proleptic Gregorian; Howard
Hinnant's algorithm, which is what JavaScript `Date` arithmetic computes).
The year must already include the century (no 1900 offset), the month is
1-based here; the day may be out of range and acts as a linear day offset,
exactly as JavaScript's `MakeDay` normalisation treats it. -/
def daysFromCivil (y m d : ℤ) : ℤ :=
  let y2 := y - (if m ≤ 2 then 1 else 0)
  let era := Int.fdiv y2 400
  let yoe := y2 - era * 400
  let doy := Int.fdiv (153 * (m + (if 2 < m then -3 else 9)) + 2) 5 + d - 1
  let doe := yoe * 365 + Int.fdiv yoe 4 - Int.fdiv yoe 100 + doy
  era * 146097 + doe - 719468

/-- Civil date (year, month 1-12, day) of a count of days since 1970-01-01. -/
def civilFromDays (z0 : ℤ) : ℤ × ℤ × ℤ :=
  let z := z0 + 719468
  let era := Int.fdiv z 146097
  let doe := z - era * 146097
  let yoe := Int.fdiv (doe - Int.fdiv doe 1460 + Int.fdiv doe 36524 - Int.fdiv doe 146096) 365
  let y := yoe + era * 400
  let doy := doe - (365 * yoe + Int.fdiv yoe 4 - Int.fdiv yoe 100)
  let mp := Int.fdiv (5 * doy + 2) 153
  let d := doy - Int.fdiv (153 * mp + 2) 5 + 1
  let m := mp + (if mp < 10 then 3 else -9)
  (y + (if m ≤ 2 then 1 else 0), m, d)

/-- A JavaScript `Date`: milliseconds since the epoch.  The local timezone is
modelled as a fixed zero offset, so local accessors read the same clock. -/
structure JsDate where
  ms : ℤ
deriving Repr, DecidableEq

/-- `new Date(year, monthIndex, day, hours, minutes, seconds)` with
JavaScript's normalisation: out-of-range components roll over linearly, and a
year 0-99 means 1900-1999. -/
def mkJsDate (year monthIndex day hours minutes seconds : ℤ) : JsDate :=
  let fullYear := if 0 ≤ year ∧ year ≤ 99 then year + 1900 else year
  let y := fullYear + Int.fdiv monthIndex 12
  let m := monthIndex - 12 * Int.fdiv monthIndex 12 + 1
  ⟨daysFromCivil y m day * 86400000 + hours * 3600000 + minutes * 60000 + seconds * 1000⟩

def JsDate.getTime (t : JsDate) : ℤ := t.ms

def JsDate.days (t : JsDate) : ℤ := Int.fdiv t.ms 86400000

def JsDate.msOfDay (t : JsDate) : ℤ := t.ms - 86400000 * t.days

def JsDate.getFullYear (t : JsDate) : ℤ := (civilFromDays t.days).1

/-- `getMonth()` is 0-based in JavaScript. -/
def JsDate.getMonth (t : JsDate) : ℤ := (civilFromDays t.days).2.1 - 1

def JsDate.getDate (t : JsDate) : ℤ := (civilFromDays t.days).2.2

def JsDate.getHours (t : JsDate) : ℤ := Int.fdiv t.msOfDay 3600000

def JsDate.getMinutes (t : JsDate) : ℤ :=
  Int.fdiv (t.msOfDay - 3600000 * t.getHours) 60000

/-- Numeric value of a decimal digit string (all characters already checked
to be digits). -/
def digitsToNat (s : Str) : ℕ :=
  s.foldl (fun n c => n * 10 + (c.toNat - '0'.toNat)) 0

/-- `parseLocalDateTime` (server.js:793): parse
`YYYY-MM-DD[T ]HH:MM(:SS)?` from the trimmed string, build the `Date`, and
reject it unless the date components survive the round trip (which rejects
out-of-range months/days/hours/minutes). -/
def parseLocalDateTime (value : Str) : Option JsDate :=
  match trim value with
  | y1 :: y2 :: y3 :: y4 :: '-' :: m1 :: m2 :: '-' :: d1 :: d2 ::
      sep :: h1 :: h2 :: ':' :: n1 :: n2 :: rest =>
    let digitsOk :=
      [y1, y2, y3, y4, m1, m2, d1, d2, h1, h2, n1, n2].all Char.isDigit
    let sepOk := sep == 'T' || sep == ' '
    let secondsPart : Option ℤ :=
      match rest with
      | [] => some 0
      | ':' :: s1 :: s2 :: [] =>
        if s1.isDigit && s2.isDigit then some (digitsToNat [s1, s2] : ℤ) else none
      | _ => none
    if digitsOk && sepOk then
      match secondsPart with
      | none => none
      | some second =>
        let year : ℤ := digitsToNat [y1, y2, y3, y4]
        let month : ℤ := digitsToNat [m1, m2]
        let day : ℤ := digitsToNat [d1, d2]
        let hour : ℤ := digitsToNat [h1, h2]
        let minute : ℤ := digitsToNat [n1, n2]
        let date := mkJsDate year (month - 1) day hour minute second
        if date.getFullYear = year ∧ date.getMonth = month - 1 ∧
            date.getDate = day ∧ date.getHours = hour ∧ date.getMinutes = minute then
          some date
        else none
    else none
  | _ => none

def digitChar (n : ℕ) : Char := Char.ofNat ('0'.toNat + n)

/-- Worker for `natDigits`: the fuel only bounds the recursion depth (one
unit per decimal digit beyond the first, so `natDigits` hands it enough). -/
def natDigitsAux : ℕ → ℕ → Str
  | 0, n => [digitChar n]
  | fuel + 1, n =>
    if n < 10 then [digitChar n]
    else natDigitsAux fuel (n / 10) ++ [digitChar (n % 10)]

/-- Decimal digits of a natural number, most significant first. -/
def natDigits (n : ℕ) : Str :=
  natDigitsAux n n

/-- `String(z)` for an integer. -/
def intToStr (z : ℤ) : Str :=
  if z < 0 then '-' :: natDigits z.natAbs else natDigits z.natAbs

/-- `String(z).padStart(2, '0')`. -/
def pad2 (z : ℤ) : Str :=
  let s := intToStr z
  List.replicate (2 - s.length) '0' ++ s

/-- `formatIsoFromDate` (server.js:844): `YYYY-MM-DDTHH:MM` with zero-padded
components (the invalid-`Date` guard cannot fire in this model). -/
def formatIsoFromDate (t : JsDate) : Str :=
  intToStr t.getFullYear ++ '-' :: pad2 (t.getMonth + 1) ++ '-' :: pad2 t.getDate
    ++ 'T' :: pad2 t.getHours ++ ':' :: pad2 t.getMinutes

/-- `formatEmployeeDateTime` (server.js:831): re-format a parseable value as
`YYYY-MM-DD HH:MM`, else echo the trimmed string. -/
def formatEmployeeDateTime (value : Str) : Str :=
  match parseLocalDateTime value with
  | none => trim value
  | some t =>
    intToStr t.getFullYear ++ '-' :: pad2 (t.getMonth + 1) ++ '-' :: pad2 t.getDate
      ++ ' ' :: pad2 t.getHours ++ ':' :: pad2 t.getMinutes

/-- `formatEmployeeDuration` (server.js:856) for a finite number of minutes. -/
def formatEmployeeDuration (minutes : ℚ) : Str :=
  if minutes ≤ 0 then '0' :: ['m']
  else
    let rounded := round minutes
    let hours := Int.fdiv rounded 60
    let mins := rounded - 60 * hours
    let parts : List Str :=
      (if 0 < hours then [intToStr hours ++ ['h']] else []) ++
        (if 0 < mins then [intToStr mins ++ ['m']] else [])
    if parts.isEmpty then '0' :: ['m'] else unwords parts

/-- `EMPLOYEE_MAX_COUNT` (server.js:288). -/
def EMPLOYEE_MAX_COUNT : ℕ := 20

/-- One raw employee record from the request body's `employees` array.
Field values are already single values (`toSingleValue` is the identity on
non-array values); `none` models an absent (`undefined`) field. -/
structure EmployeeRecord where
  name : Option Str := none
  role : Option Str := none
  arrival : Option Str := none
  departure : Option Str := none
deriving Repr, DecidableEq

/-- One produced employee entry (server.js:990-1003). -/
structure EmployeeEntry where
  index : ℕ
  name : Str
  role : Str
  arrival : Str
  departure : Str
  arrivalDisplay : Str
  departureDisplay : Str
  durationMinutes : ℚ
  durationLabel : Str
  breakCode : String
  breakRequiredMinutes : ℚ
  breakLabel : String
deriving Repr, DecidableEq

/-- The summary record built by `collectEmployeeEntries`; the four counters
are the fields of its `breakStats` object. -/
structure EmployeeSummary where
  entries : List EmployeeEntry
  totalMinutes : ℚ
  totalBreakMinutes : ℚ
  statNONE : ℕ
  statMIN30 : ℕ
  statMIN45 : ℕ
  statUNKNOWN : ℕ
deriving Repr, DecidableEq

/-- JavaScript truthiness of an optional string (`undefined` and `''` are
falsy, every other string truthy). -/
def strTruthy (v : Option Str) : Bool :=
  match v with
  | none => false
  | some s => !s.isEmpty

/-- `toSingleValue(record.f) ? String(toSingleValue(record.f)).trim() : ''`. -/
def normStr (v : Option Str) : Str :=
  if strTruthy v then trim (v.getD []) else []

/-- The record returned by `ensureFutureDeparture`. -/
structure NormalizedTimes where
  arrivalIso : Str
  departureIso : Str
  minutes : ℚ
deriving Repr, DecidableEq

/-- `ensureFutureDeparture` (server.js:948-964), the closure inside the
second (active) `collectEmployeeEntries`: normalise both instants and force a
departure one hour after arrival whenever the departure is missing,
unparseable, or not strictly after the arrival (rounded duration `<= 0`). -/
def ensureFutureDeparture (arrivalIso departureIso : Str) : NormalizedTimes :=
  match parseLocalDateTime arrivalIso with
  | none => { arrivalIso := arrivalIso, departureIso := departureIso, minutes := 0 }
  | some arrivalDate =>
    let normalizedArrival := formatIsoFromDate arrivalDate
    match parseLocalDateTime departureIso with
    | some departureDate =>
      let minutes : ℚ :=
        (round (((departureDate.getTime - arrivalDate.getTime : ℤ) : ℚ) / 60000) : ℤ)
      if minutes ≤ 0 then
        { arrivalIso := normalizedArrival
          departureIso := formatIsoFromDate ⟨arrivalDate.getTime + 60 * 60000⟩
          minutes := 60 }
      else
        { arrivalIso := normalizedArrival
          departureIso := formatIsoFromDate departureDate
          minutes := minutes }
    | none =>
      { arrivalIso := normalizedArrival
        departureIso := formatIsoFromDate ⟨arrivalDate.getTime + 60 * 60000⟩
        minutes := 60 }

/-- The `forEach` body of the second (active) `collectEmployeeEntries`
(server.js:966-1003) for one record: default a missing arrival to `now` and a
missing departure to arrival + 1h, skip an all-empty record, then normalise
through `ensureFutureDeparture` and attach the derived break requirement. -/
def processEmployeeRecord (now : JsDate) (index : ℕ) (rec : EmployeeRecord) :
    Option EmployeeEntry :=
  let name := normStr rec.name
  let role := normStr rec.role
  let arrivalIso0 := normStr rec.arrival
  let departureIso0 := normStr rec.departure
  let arrivalIso :=
    if arrivalIso0.isEmpty && (!name.isEmpty || !role.isEmpty || !departureIso0.isEmpty)
    then formatIsoFromDate now else arrivalIso0
  let departureIso :=
    if departureIso0.isEmpty && !arrivalIso.isEmpty then
      formatIsoFromDate
        ⟨(match parseLocalDateTime arrivalIso with
          | some d => d.getTime
          | none => now.getTime) + 60 * 60000⟩
    else departureIso0
  if name.isEmpty && role.isEmpty && arrivalIso.isEmpty && departureIso.isEmpty then none
  else
    let normalized := ensureFutureDeparture arrivalIso departureIso
    let breakInfo := determineBreakRequirement (some normalized.minutes)
    some
      { index := index + 1
        name := name
        role := role
        arrival := normalized.arrivalIso
        departure := normalized.departureIso
        arrivalDisplay := formatEmployeeDateTime normalized.arrivalIso
        departureDisplay := formatEmployeeDateTime normalized.departureIso
        durationMinutes := normalized.minutes
        durationLabel := formatEmployeeDuration normalized.minutes
        breakCode := breakInfo.code
        breakRequiredMinutes := breakInfo.minutes
        breakLabel := breakInfo.label }

/-- Folding one processed entry into the running summary
(server.js:1004-1011): append the entry and update totals and `breakStats`
(an unknown code would fall into the `UNKNOWN` counter). -/
def employeeSummaryStep (now : JsDate) (summary : EmployeeSummary)
    (ir : ℕ × EmployeeRecord) : EmployeeSummary :=
  match processEmployeeRecord now ir.1 ir.2 with
  | none => summary
  | some e =>
    { entries := summary.entries ++ [e]
      totalMinutes := summary.totalMinutes + e.durationMinutes
      totalBreakMinutes := summary.totalBreakMinutes + e.breakRequiredMinutes
      statNONE := summary.statNONE + (if e.breakCode = "NONE" then 1 else 0)
      statMIN30 := summary.statMIN30 + (if e.breakCode = "MIN30" then 1 else 0)
      statMIN45 := summary.statMIN45 + (if e.breakCode = "MIN45" then 1 else 0)
      statUNKNOWN := summary.statUNKNOWN +
        (if e.breakCode = "NONE" ∨ e.breakCode = "MIN30" ∨ e.breakCode = "MIN45"
         then 0 else 1) }

/-- The second (active, shadowing) `collectEmployeeEntries` (server.js:900)
on the `Array.isArray(body.employees)` path.  The array path appends sources
with indexes `0, 1, ...` already in ascending order, so the stable
`sort((a, b) => a.index - b.index)` is the identity and the two
`slice(0, EMPLOYEE_MAX_COUNT)` cuts coincide with one `take`.  `now` is the
wall clock read by the `new Date()` defaults. -/
def collectEmployeeEntries (now : JsDate) (employees : List EmployeeRecord) :
    EmployeeSummary :=
  ((employees.take EMPLOYEE_MAX_COUNT).enum).foldl (employeeSummaryStep now)
    { entries := [], totalMinutes := 0, totalBreakMinutes := 0
      statNONE := 0, statMIN30 := 0, statMIN45 := 0, statUNKNOWN := 0 }

/-- One queued overflow entry as consumed by `appendOverflowPages`. -/
structure OverflowEntry where
  acroName : Str
  requestName : Str
  label : Option Str := none
  text : Str
deriving Repr, DecidableEq

/-- One placement record returned by `appendOverflowPages`. -/
structure OverflowPlacement where
  acroName : Str
  requestName : Str
  page : ℕ
deriving Repr, DecidableEq

/-- The PDF document as `appendOverflowPages` sees it: its current page count
and the size of its first page (A4 defaults when empty). -/
structure PdfDocModel where
  pageCount : ℕ
  pageWidth : ℚ := 595.28
  pageHeight : ℚ := 841.89
deriving Repr, DecidableEq

/-- `DEFAULT_TEXT_FIELD_STYLE` (server.js:107). -/
def DEFAULT_FONT_SIZE : ℚ := 10

def DEFAULT_MIN_FONT_SIZE : ℚ := 7

def DEFAULT_LINE_HEIGHT_MULTIPLIER : ℚ := 6/5

/-- The line cost of one overflow entry in the appendix bin-packing pass
(server.js:1313): its newline-separated line count plus 2. -/
def overflowEntryCost (e : OverflowEntry) : ℤ :=
  ((splitRN e.text).length : ℤ) + 2

/-- One step of the greedy packing pass (server.js:1312-1322): flush the
current page when the entry would exceed the capacity and the page is
non-empty, then add the entry. -/
def packStep (cap : ℤ) (st : List (List OverflowEntry) × List OverflowEntry × ℤ)
    (e : OverflowEntry) : List (List OverflowEntry) × List OverflowEntry × ℤ :=
  let cost := overflowEntryCost e
  if cap < st.2.2 + cost ∧ ¬st.2.1.isEmpty then (st.1 ++ [st.2.1], [e], cost)
  else (st.1, st.2.1 ++ [e], st.2.2 + cost)

/-- The `entriesPerPage` grouping computed by `appendOverflowPages`
(server.js:1306-1324). -/
def packGroups (cap : ℤ) (entries : List OverflowEntry) : List (List OverflowEntry) :=
  let r := entries.foldl (packStep cap) ([], [], 0)
  if r.2.1.isEmpty then r.1 else r.1 ++ [r.2.1]

/-- `maxLinesPerPage` (server.js:1310): the appendix page's line capacity,
`floor((pageHeight - 2 * margin) / (fontSize * lineHeightMultiplier))` at the
default font size. -/
def overflowCapacity (doc : PdfDocModel) (marginOpt lineHeightMultiplierOpt : Option ℚ) : ℤ :=
  ⌊(doc.pageHeight - (marginOpt.getD 56) * 2) /
    (DEFAULT_FONT_SIZE * (lineHeightMultiplierOpt.getD DEFAULT_LINE_HEIGHT_MULTIPLIER))⌋

/-- `appendOverflowPages` (server.js:1295-1374), reduced to the data it
returns: the placements.  Each group becomes one appendix page added to the
document, and every entry drawn on it records `pdfDoc.getPageCount()` — the
page total right after that page was added. -/
def appendOverflowPages (doc : PdfDocModel) (font : Option Font)
    (entries : List OverflowEntry) (marginOpt lineHeightMultiplierOpt : Option ℚ) :
    List OverflowPlacement :=
  match font with
  | none => []
  | some _ =>
    if entries.isEmpty then []
    else
      let groups := packGroups (overflowCapacity doc marginOpt lineHeightMultiplierOpt) entries
      (groups.enum.map (fun gi =>
        gi.2.map (fun e =>
          { acroName := e.acroName
            requestName := e.requestName
            page := doc.pageCount + gi.1 + 1 }))).flatten

/-! ### Shared helper lemmas -/

theorem foldlInvariant {σ : Type _} {α : Type _} (step : σ → α → σ) (P : σ → Prop) :
    ∀ (l : List α) (s : σ), P s → (∀ s a, a ∈ l → P s → P (step s a)) →
      P (l.foldl step s) := by
  intro l
  induction l with
  | nil => intro s hs _; exact hs
  | cons a l ih =>
    intro s hs hstep
    exact ih _ (hstep s a (by simp) hs)
      (fun s b hb => hstep s b (by simp [hb]))

theorem splitRN_ne_nil (s : Str) : splitRN s ≠ [] := by
  rw [splitRN.eq_def]
  split
  · simp
  · simp
  · simp
  · split
    · simp
    · simp

theorem mem_stripTrailing {x : Str} {l : List Str}
    (h : x ∈ stripTrailingEmptyLines l) : x ∈ l := by
  unfold stripTrailingEmptyLines at h
  rw [List.mem_reverse] at h
  have := (List.dropWhile_sublist _).mem h
  rwa [List.mem_reverse] at this

theorem stripTrailing_eq_nil_iff {l : List Str} :
    stripTrailingEmptyLines l = [] ↔ ∀ x ∈ l, (trim x).isEmpty = true := by
  unfold stripTrailingEmptyLines
  rw [List.reverse_eq_nil_iff, List.dropWhile_eq_nil_iff]
  constructor
  · intro h x hx
    exact h x (List.mem_reverse.mpr hx)
  · intro h x hx
    exact h x (List.mem_reverse.mp hx)

theorem stripTrailing_decomp (l : List Str) :
    ∃ rest, l = stripTrailingEmptyLines l ++ rest ∧
      ∀ x ∈ rest, (trim x).isEmpty = true := by
  refine ⟨(l.reverse.takeWhile (fun s => (trim s).isEmpty)).reverse, ?_, ?_⟩
  · unfold stripTrailingEmptyLines
    conv_lhs => rw [← l.reverse_reverse]
    rw [← List.reverse_append, List.takeWhile_append_dropWhile]
  · intro x hx
    rw [List.mem_reverse] at hx
    have := List.mem_takeWhile_imp hx
    simpa using this

theorem stripTrailing_getLast {l : List Str} (h : stripTrailingEmptyLines l ≠ []) :
    (trim ((stripTrailingEmptyLines l).getLast h)).isEmpty = false := by
  unfold stripTrailingEmptyLines at h ⊢
  rw [List.getLast_reverse]
  have hne : l.reverse.dropWhile (fun s => (trim s).isEmpty) ≠ [] := by
    intro hnil
    exact h (by rw [hnil]; rfl)
  have := List.head_dropWhile_not (fun s => (trim s).isEmpty) l.reverse hne
  simpa using this

theorem stripLeading_eq_nil_iff {l : List Str} :
    stripLeadingEmptyLines l = [] ↔ ∀ x ∈ l, (trim x).isEmpty = true := by
  unfold stripLeadingEmptyLines
  exact List.dropWhile_eq_nil_iff

theorem stripLeading_head {l : List Str} (h : stripLeadingEmptyLines l ≠ []) :
    (trim ((stripLeadingEmptyLines l).head h)).isEmpty = false := by
  unfold stripLeadingEmptyLines at h ⊢
  have := List.head_dropWhile_not (fun s => (trim s).isEmpty) l h
  simpa using this

theorem mem_stripLeading {x : Str} {l : List Str}
    (h : x ∈ stripLeadingEmptyLines l) : x ∈ l :=
  (List.dropWhile_sublist _).mem h

theorem stripLeading_decomp (l : List Str) :
    l = l.takeWhile (fun s => (trim s).isEmpty) ++ stripLeadingEmptyLines l :=
  (List.takeWhile_append_dropWhile _ _).symm

theorem trim_eq_nil_iff {s : Str} : trim s = [] ↔ ∀ c ∈ s, isWs c = true := by
  unfold trim
  rw [List.reverse_eq_nil_iff, List.dropWhile_eq_nil_iff]
  constructor
  · intro h c hc
    have hc2 : c ∈ s.takeWhile isWs ++ s.dropWhile isWs := by
      rw [List.takeWhile_append_dropWhile]
      exact hc
    rcases List.mem_append.mp hc2 with hm | hm
    · exact List.mem_takeWhile_imp hm
    · exact h c (List.mem_reverse.mpr hm)
  · intro h c hc
    rw [List.mem_reverse] at hc
    exact h c ((List.dropWhile_sublist _).mem hc)

theorem mem_joinNL {c : Char} {l : Str} {ls : List Str} (hl : l ∈ ls) (hc : c ∈ l) :
    c ∈ joinNL ls := by
  induction ls with
  | nil => cases hl
  | cons x xs ih =>
    rcases List.mem_cons.mp hl with h | h
    · subst h
      cases xs with
      | nil => simpa [joinNL] using hc
      | cons y ys => simp [joinNL, hc]
    · cases xs with
      | nil => cases h
      | cons y ys =>
        simp only [joinNL, List.mem_append, List.mem_cons]
        right
        right
        simpa using ih h

theorem exists_nonWs_of_trim_ne_nil {s : Str} (h : trim s ≠ []) :
    ∃ c ∈ s, isWs c = false := by
  by_contra hall
  push_neg at hall
  exact h (trim_eq_nil_iff.mpr (fun c hc => by simpa using hall c hc))

theorem trim_joinNL_ne_nil {l : Str} {ls : List Str} (hl : l ∈ ls)
    (h : (trim l).isEmpty = false) : (trim (joinNL ls)).isEmpty = false := by
  rcases exists_nonWs_of_trim_ne_nil (by simpa [List.isEmpty_iff] using h) with ⟨c, hcm, hcw⟩
  have hmem : c ∈ joinNL ls := mem_joinNL hl hcm
  rw [Bool.eq_false_iff]
  intro habs
  rw [List.isEmpty_iff] at habs
  exact absurd (trim_eq_nil_iff.mp habs c hmem) (by simp [hcw])

/-! ### C2: break-requirement boundaries -/

/-- C2: `determineBreakRequirement` maps 360 minutes to the "none" tier, 361
and 540 to the 30-minute tier, 541 to the 45-minute tier, and 0 or
non-finite durations to the "pending" (`UNKNOWN`) category; the tier bounds
at 360 and 540 are inclusive. -/
theorem determineBreakRequirement_boundaries :
    (determineBreakRequirement (some 360)).code = "NONE" ∧
    (determineBreakRequirement (some 361)).code = "MIN30" ∧
    (determineBreakRequirement (some 540)).code = "MIN30" ∧
    (determineBreakRequirement (some 541)).code = "MIN45" ∧
    (determineBreakRequirement (some 0)).code = "UNKNOWN" ∧
    (determineBreakRequirement none).code = "UNKNOWN" ∧
    (∀ m : ℚ, 0 < m → m ≤ 360 → (determineBreakRequirement (some m)).code = "NONE") ∧
    (∀ m : ℚ, 360 < m → m ≤ 540 → (determineBreakRequirement (some m)).code = "MIN30") ∧
    (∀ m : ℚ, 540 < m → (determineBreakRequirement (some m)).code = "MIN45") ∧
    (∀ m : ℚ, m ≤ 0 → (determineBreakRequirement (some m)).code = "UNKNOWN") := by
  refine ⟨by with_unfolding_all rfl, by with_unfolding_all rfl, by with_unfolding_all rfl,
    by with_unfolding_all rfl, by with_unfolding_all rfl, by with_unfolding_all rfl,
    ?_, ?_, ?_, ?_⟩
  · intro m h1 h2
    simp only [determineBreakRequirement]
    rw [if_neg (by linarith), if_pos (by norm_num; linarith)]
  · intro m h1 h2
    simp only [determineBreakRequirement]
    rw [if_neg (by linarith), if_neg (by norm_num; linarith), if_pos (by norm_num; linarith)]
  · intro m h1
    simp only [determineBreakRequirement]
    rw [if_neg (by linarith), if_neg (by norm_num; linarith), if_neg (by norm_num; linarith)]
  · intro m h1
    simp only [determineBreakRequirement]
    rw [if_pos h1]

/-- Witness for C2's universally quantified parts at concrete durations. -/
theorem determineBreakRequirement_boundaries_witness :
    ((0 : ℚ) < 100 ∧ (100 : ℚ) ≤ 360 ∧
      (determineBreakRequirement (some 100)).code = "NONE") ∧
    ((540 : ℚ) < 600 ∧ (determineBreakRequirement (some 600)).code = "MIN45") :=
  ⟨⟨by norm_num, by norm_num,
      determineBreakRequirement_boundaries.2.2.2.2.2.2.1 100 (by norm_num) (by norm_num)⟩,
    ⟨by norm_num,
      determineBreakRequirement_boundaries.2.2.2.2.2.2.2.2.1 600 (by norm_num)⟩⟩

/-! ### C10: splitLongWord conserves the word -/

theorem splitLongWord_fold_concat (f : Font) (fontSize w : ℚ) :
    ∀ (cs : Str) (st : List Str × Str),
      (cs.foldl (splitLongWordStep f fontSize w) st).1.flatten ++
          (cs.foldl (splitLongWordStep f fontSize w) st).2 =
        st.1.flatten ++ st.2 ++ cs := by
  intro cs
  induction cs with
  | nil => intro st; simp
  | cons c rest ih =>
    intro st
    rw [List.foldl_cons]
    rw [ih (splitLongWordStep f fontSize w st c)]
    unfold splitLongWordStep
    by_cases hcond : st.2.isEmpty = true ∨ f.widthOfTextAtSize (st.2 ++ [c]) fontSize ≤ w
    · have hst2 : st.2.isEmpty = true → st.2 = [] := by simp [List.isEmpty_iff]
      simp only [if_pos hcond]
      simp
    · simp only [if_neg hcond]
      simp

theorem splitLongWord_flatten_ne_nil (word : Str) (font : Option Font)
    (fontSize : ℚ) (maxWidth : Option ℚ) (h : word ≠ []) :
    (splitLongWord word font fontSize maxWidth).flatten = word ∧
      splitLongWord word font fontSize maxWidth ≠ [] := by
  have hne : word.isEmpty = false := by simpa [List.isEmpty_iff] using h
  match font, maxWidth with
  | none, none => simp [splitLongWord, hne]
  | none, some w => simp [splitLongWord, hne]
  | some f, none => simp [splitLongWord, hne]
  | some f, some w =>
    by_cases h0 : w ≤ 0
    · simp [splitLongWord, hne, h0, h]
    by_cases h1 : f.widthOfTextAtSize word fontSize ≤ w
    · simp [splitLongWord, hne, h0, h1, h]
    have hconcat := splitLongWord_fold_concat f fontSize w word ([], [])
    simp only [List.flatten_nil, List.nil_append] at hconcat
    simp only [splitLongWord, hne, Bool.false_eq_true, if_false, if_neg h0, if_neg h1]
    set r := word.foldl (splitLongWordStep f fontSize w) ([], []) with hr
    by_cases h2 : r.2.isEmpty
    · have hr2 : r.2 = [] := by simpa [List.isEmpty_iff] using h2
      rw [hr2, List.append_nil] at hconcat
      rw [if_pos h2]
      by_cases h3 : r.1.isEmpty
      · rw [if_pos h3]
        exact ⟨by simp, by simp⟩
      · rw [if_neg h3]
        exact ⟨hconcat, by simpa [List.isEmpty_iff] using h3⟩
    · rw [if_neg h2]
      have hpartsne : r.1 ++ [r.2] ≠ [] := by simp
      rw [if_neg (by simp [List.isEmpty_iff])]
      refine ⟨?_, hpartsne⟩
      rw [List.flatten_append]
      simpa using hconcat

/-- C10 (implicit): for every non-empty word — and any font, font size, and
(possibly non-finite or non-positive) maximum width — `splitLongWord` returns
a non-empty list of fragments whose in-order concatenation is exactly the
original word: no character is dropped, reordered, or duplicated. -/
theorem splitLongWord_conservation (word : Str) (font : Option Font)
    (fontSize : ℚ) (maxWidth : Option ℚ) (h : word ≠ []) :
    (splitLongWord word font fontSize maxWidth).flatten = word ∧
      splitLongWord word font fontSize maxWidth ≠ [] :=
  splitLongWord_flatten_ne_nil word font fontSize maxWidth h

/-- Witness for C10 at the concrete word "hello". -/
theorem splitLongWord_conservation_witness :
    (['h', 'e', 'l', 'l', 'o'] : Str) ≠ [] ∧
      ((splitLongWord ['h', 'e', 'l', 'l', 'o'] none 10 none).flatten =
          ['h', 'e', 'l', 'l', 'o'] ∧
        splitLongWord ['h', 'e', 'l', 'l', 'o'] none 10 none ≠ []) :=
  ⟨by decide, splitLongWord_conservation ['h', 'e', 'l', 'l', 'o'] none 10 none (by decide)⟩

/-! ### C8: measurement-unavailable fallbacks -/

theorem splitRN_nil : splitRN [] = [[]] := rfl

/-- C8: when no font/measurer is available — or, for the wrapper and the
width-only engine, when `maxWidth` is non-finite or `<= 0` — the word wrapper
falls back to a literal `/\r?\n/` split with no wrapping, and both layout
engines do the same while reporting no overflow and keeping the requested
font size, instead of failing or looping. -/
theorem measurement_unavailable_fallbacks :
    (∀ (text : Str) (font : Option Font) (fontSize : ℚ) (maxWidth : Option ℚ),
      (font = none ∨ maxWidth = none ∨ ∃ w, maxWidth = some w ∧ w ≤ 0) →
        wrapTextToWidth text font fontSize maxWidth = splitRN text) ∧
    (∀ o : FieldLayoutOptions, o.font = none ∨ o.widget = none →
      layoutTextForField o = {
        fieldLines := splitRN o.value
        overflowLines := []
        fieldText := joinNL (splitRN o.value)
        overflowText := []
        overflowDetected := false
        totalLines := (splitRN o.value).length
        displayedLines := (splitRN o.value).length
        lineHeight := o.fontSize * o.lineHeightMultiplier
        appliedFontSize := o.fontSize }) ∧
    (∀ (value : Str) (font : Option Font) (fontSize minFontSize lhm : ℚ)
        (maxWidth : Option ℚ),
      (font = none ∨ maxWidth = none ∨ ∃ w, maxWidth = some w ∧ w ≤ 0) →
        layoutTextForWidth value font fontSize minFontSize lhm maxWidth = {
          lines := splitRN value
          fontSize := fontSize
          lineHeight := fontSize * lhm
          lineCount := (splitRN value).length }) := by
  have hval : ∀ v : Str, (if v.isEmpty then ([[]] : List Str) else splitRN v) = splitRN v := by
    intro v
    by_cases hv : v.isEmpty
    · rw [if_pos hv]
      have hv2 : v = [] := by simpa [List.isEmpty_iff] using hv
      rw [hv2, splitRN_nil]
    · rw [if_neg hv]
  have hcount : ∀ v : Str,
      (if (splitRN v).length = 0 then 1 else (splitRN v).length) = (splitRN v).length := by
    intro v
    rw [if_neg (by simpa [List.length_eq_zero] using splitRN_ne_nil v)]
  refine ⟨?_, ?_, ?_⟩
  · intro text font fontSize maxWidth hcond
    by_cases ht : text.isEmpty
    · have ht2 : text = [] := by simpa [List.isEmpty_iff] using ht
      subst ht2
      simp [wrapTextToWidth, splitRN_nil]
    rcases hcond with hf | hw | ⟨w, hw, hw0⟩
    · subst hf
      cases maxWidth <;> simp [wrapTextToWidth, ht]
    · subst hw
      cases font <;> simp [wrapTextToWidth, ht]
    · subst hw
      cases font with
      | none => simp [wrapTextToWidth, ht]
      | some f => simp [wrapTextToWidth, ht, if_pos hw0]
  · intro o hcond
    have hfb : layoutTextForField o = {
        fieldLines := (if o.value.isEmpty then [[]] else splitRN o.value)
        overflowLines := []
        fieldText := joinNL (if o.value.isEmpty then [[]] else splitRN o.value)
        overflowText := []
        overflowDetected := false
        totalLines := (if o.value.isEmpty then [[]] else splitRN o.value).length
        displayedLines := (if o.value.isEmpty then [[]] else splitRN o.value).length
        lineHeight := o.fontSize * o.lineHeightMultiplier
        appliedFontSize := o.fontSize } := by
      rcases hcond with hf | hw
      · unfold layoutTextForField
        rw [hf]
      · unfold layoutTextForField
        rw [hw]
        all_goals cases o.font <;> rfl
    rw [hfb]
    simp only [hval o.value]
  · intro value font fontSize minFontSize lhm maxWidth hcond
    have hfb : layoutTextForWidth value font fontSize minFontSize lhm maxWidth =
        widthLayoutFallback value fontSize lhm := by
      rcases hcond with hf | hw | ⟨w, hw, hw0⟩
      · subst hf
        cases maxWidth <;> rfl
      · subst hw
        cases font <;> rfl
      · subst hw
        cases font with
        | none => rfl
        | some f =>
          simp only [layoutTextForWidth]
          rw [if_pos hw0]
    rw [hfb]
    unfold widthLayoutFallback
    simp only [hval value, hcount value]

/-- Witness for C8 with a missing font and a non-positive width. -/
theorem measurement_unavailable_fallbacks_witness :
    ((none : Option Font) = none ∨ (some (0 : ℚ) : Option ℚ) = none ∨
        ∃ w, (some (0 : ℚ) : Option ℚ) = some w ∧ w ≤ 0) ∧
      wrapTextToWidth ['a', '\n', 'b'] none 10 (some 0) = splitRN ['a', '\n', 'b'] :=
  ⟨Or.inl rfl,
    measurement_unavailable_fallbacks.1 ['a', '\n', 'b'] none 10 (some 0) (Or.inl rfl)⟩

/-! ### C9: greedy line-budget packing of overflow entries -/

/-- Total line cost of one appendix page's entries. -/
def groupCost (g : List OverflowEntry) : ℤ :=
  (g.map overflowEntryCost).sum

/-- Every entry after the first was added because the running total stayed
within the capacity. -/
def GoodGroup (cap : ℤ) (g : List OverflowEntry) : Prop :=
  ∀ pre e post, g = pre ++ e :: post → pre ≠ [] →
    groupCost pre + overflowEntryCost e ≤ cap

/-- A page break happened exactly because the next entry would have exceeded
the capacity of the page before it. -/
def PackBoundary (cap : ℤ) (g1 g2 : List OverflowEntry) : Prop :=
  ∀ h : g2 ≠ [], cap < groupCost g1 + overflowEntryCost (g2.head h)

theorem packStep_fold_flatten (cap : ℤ) :
    ∀ (es : List OverflowEntry) (st : List (List OverflowEntry) × List OverflowEntry × ℤ),
      (es.foldl (packStep cap) st).1.flatten ++ (es.foldl (packStep cap) st).2.1 =
        st.1.flatten ++ st.2.1 ++ es := by
  intro es
  induction es with
  | nil => intro st; simp
  | cons e rest ih =>
    intro st
    rw [List.foldl_cons, ih (packStep cap st e)]
    unfold packStep
    by_cases hcond : cap < st.2.2 + overflowEntryCost e ∧ ¬st.2.1.isEmpty = true
    · simp only [if_pos hcond]
      simp
    · simp only [if_neg hcond]
      simp

/-- The qualitative invariant of the packing pass. -/
def PackInv (cap : ℤ) (st : List (List OverflowEntry) × List OverflowEntry × ℤ) : Prop :=
  (st.1 = [] ∧ st.2.1 = [] ∧ st.2.2 = 0) ∨
    (st.2.1 ≠ [] ∧ st.2.2 = groupCost st.2.1 ∧
      (∀ g ∈ st.1, g ≠ [] ∧ GoodGroup cap g) ∧ GoodGroup cap st.2.1 ∧
      List.Chain' (PackBoundary cap) (st.1 ++ [st.2.1]))

theorem goodGroup_nil (cap : ℤ) : GoodGroup cap [] := by
  intro pre e post hdec hpre
  exact absurd (List.append_eq_nil.mp hdec.symm).1 hpre

theorem goodGroup_singleton (cap : ℤ) (e : OverflowEntry) : GoodGroup cap [e] := by
  intro pre x post hdec hpre
  exfalso
  rcases pre with _ | ⟨p, pre⟩
  · exact hpre rfl
  · rw [List.cons_append, List.cons_eq_cons] at hdec
    exact (List.cons_ne_nil x post) (List.append_eq_nil.mp hdec.2.symm).2

theorem goodGroup_append (cap : ℤ) (g : List OverflowEntry) (e : OverflowEntry)
    (hg : GoodGroup cap g) (hfits : groupCost g + overflowEntryCost e ≤ cap) :
    GoodGroup cap (g ++ [e]) := by
  intro pre x post hdec hpre
  rcases List.eq_nil_or_concat post with hp | ⟨ps, p, hp⟩
  · subst hp
    obtain ⟨h1, h2⟩ := List.append_inj' hdec.symm (by rfl)
    have hx : x = e := by
      have h3 := h2
      simp only [List.cons_eq_cons] at h3
      exact h3.1
    rw [h1, hx]
    exact hfits
  · subst hp
    have hdec2 : g ++ [e] = (pre ++ x :: ps) ++ [p] := by
      rw [hdec]
      simp [List.concat_eq_append]
    obtain ⟨h1, _⟩ := List.append_inj' hdec2 (by rfl)
    exact hg pre x ps h1 hpre

theorem packStep_inv (cap : ℤ) (st : List (List OverflowEntry) × List OverflowEntry × ℤ)
    (e : OverflowEntry) (h : PackInv cap st) : PackInv cap (packStep cap st e) := by
  rcases h with ⟨h1, h2, h3⟩ | ⟨hne, hcount, hpages, hgood, hchain⟩
  · -- initial state: the flush guard cannot fire, the entry starts the group
    unfold packStep
    rw [if_neg (by simp [h2])]
    right
    refine ⟨by simp [h2], ?_, by simp [h1], ?_, ?_⟩
    · simp [h2, h3, groupCost]
    · rw [h2, List.nil_append]
      exact goodGroup_singleton cap e
    · simp [h1, h2, List.chain'_singleton]
  · unfold packStep
    by_cases hcond : cap < st.2.2 + overflowEntryCost e ∧ ¬st.2.1.isEmpty = true
    · rw [if_pos hcond]
      right
      refine ⟨by simp, by simp [groupCost], ?_, goodGroup_singleton cap e, ?_⟩
      · intro g hg
        rcases List.mem_append.mp hg with hg | hg
        · exact hpages g hg
        · rw [List.mem_singleton.mp hg]
          exact ⟨hne, hgood⟩
      · rw [List.chain'_append]
        refine ⟨hchain, List.chain'_singleton _, ?_⟩
        intro x hx y hy
        have hy2 : y = [e] := by
          have := hy
          simp only [List.head?_cons, Option.mem_def, Option.some.injEq] at this
          exact this.symm
        have hx2 : x = st.2.1 := by
          rw [List.getLast?_append] at hx
          have := hx
          simp only [List.getLast?_singleton, Option.or_some, Option.mem_def,
            Option.some.injEq] at this
          exact this.symm
        subst hy2
        subst hx2
        intro hh
        simpa [hcount] using hcond.1
    · rw [if_neg hcond]
      have hfits : groupCost st.2.1 + overflowEntryCost e ≤ cap := by
        rcases not_and_or.mp hcond with hc | hc
        · rw [← hcount]
          linarith [not_lt.mp hc]
        · exact absurd (by simpa [List.isEmpty_iff] using hne) (by simpa using hc)
      right
      refine ⟨by simp, ?_, hpages, goodGroup_append cap st.2.1 e hgood hfits, ?_⟩
      · simp [groupCost, hcount]
      · rcases List.chain'_append.mp hchain with ⟨hc1, _, hc3⟩
        rw [List.chain'_append]
        refine ⟨hc1, List.chain'_singleton _, ?_⟩
        intro x hx y hy
        have hy2 : y = st.2.1 ++ [e] := by
          have := hy
          simp only [List.head?_cons, Option.mem_def, Option.some.injEq] at this
          exact this.symm
        subst hy2
        intro hh
        rw [List.head_append_of_ne_nil hne]
        exact hc3 x hx st.2.1 (by simp) hne

theorem packGroups_spec (cap : ℤ) (entries : List OverflowEntry) (hne : entries ≠ []) :
    (packGroups cap entries).flatten = entries ∧
      (∀ g ∈ packGroups cap entries, g ≠ [] ∧ GoodGroup cap g) ∧
      List.Chain' (PackBoundary cap) (packGroups cap entries) := by
  have hinv : PackInv cap (entries.foldl (packStep cap) ([], [], 0)) :=
    foldlInvariant (packStep cap) (PackInv cap) entries ([], [], 0)
      (Or.inl ⟨rfl, rfl, rfl⟩) (fun st a _ h => packStep_inv cap st a h)
  have hflat := packStep_fold_flatten cap entries ([], [], 0)
  simp only [List.flatten_nil, List.nil_append] at hflat
  set r := entries.foldl (packStep cap) ([], [], 0) with hr
  rcases hinv with ⟨h1, h2, _⟩ | ⟨hne2, _, hpages, hgood, hchain⟩
  · rw [h1, h2] at hflat
    simp at hflat
    exact absurd hflat.symm (by simpa using hne)
  · unfold packGroups
    rw [← hr, if_neg (by simpa [List.isEmpty_iff] using hne2)]
    refine ⟨by simpa using hflat, ?_, hchain⟩
    intro g hg
    rcases List.mem_append.mp hg with hg | hg
    · exact hpages g hg
    · rw [List.mem_singleton.mp hg]
      exact ⟨hne2, hgood⟩

/-- C9: `appendOverflowPages` packs overflow entries greedily in input order:
each entry costs its newline-separated line count plus 2 budget lines;
entries accumulate on the current appendix page while they fit the capacity
`floor((pageHeight - 2*margin) / lineHeight)`, and a new page starts exactly
when the next entry would exceed it.  The returned placements list the
entries in input order, one placement (with one page index) per entry, the
placement page of the entries of the `i`-th appendix page being the page
count after that page was added. -/
theorem appendOverflowPages_greedy (doc : PdfDocModel) (f : Font)
    (entries : List OverflowEntry) (marginOpt lhmOpt : Option ℚ)
    (hne : entries ≠ []) :
    (packGroups (overflowCapacity doc marginOpt lhmOpt) entries).flatten = entries ∧
    (∀ g ∈ packGroups (overflowCapacity doc marginOpt lhmOpt) entries,
      g ≠ [] ∧ GoodGroup (overflowCapacity doc marginOpt lhmOpt) g) ∧
    List.Chain' (PackBoundary (overflowCapacity doc marginOpt lhmOpt))
      (packGroups (overflowCapacity doc marginOpt lhmOpt) entries) ∧
    appendOverflowPages doc (some f) entries marginOpt lhmOpt =
      ((packGroups (overflowCapacity doc marginOpt lhmOpt) entries).enum.map (fun gi =>
        gi.2.map (fun e =>
          { acroName := e.acroName
            requestName := e.requestName
            page := doc.pageCount + gi.1 + 1 }))).flatten ∧
    (appendOverflowPages doc (some f) entries marginOpt lhmOpt).map
        (fun p => p.acroName) = entries.map (fun e => e.acroName) ∧
    (appendOverflowPages doc (some f) entries marginOpt lhmOpt).map
        (fun p => p.requestName) = entries.map (fun e => e.requestName) ∧
    (appendOverflowPages doc (some f) entries marginOpt lhmOpt).length =
      entries.length := by
  obtain ⟨hflat, hgroups, hchain⟩ := packGroups_spec (overflowCapacity doc marginOpt lhmOpt)
    entries hne
  have happ : appendOverflowPages doc (some f) entries marginOpt lhmOpt =
      ((packGroups (overflowCapacity doc marginOpt lhmOpt) entries).enum.map (fun gi =>
        gi.2.map (fun e =>
          ({ acroName := e.acroName
             requestName := e.requestName
             page := doc.pageCount + gi.1 + 1 } : OverflowPlacement)))).flatten := by
    unfold appendOverflowPages
    rw [if_neg (by simpa [List.isEmpty_iff] using hne)]
  have hmapgen : ∀ (nm : OverflowPlacement → Str) (nm2 : OverflowEntry → Str),
      (∀ (e : OverflowEntry) (pg : ℕ),
        nm (OverflowPlacement.mk e.acroName e.requestName pg) = nm2 e) →
      (appendOverflowPages doc (some f) entries marginOpt lhmOpt).map nm =
        entries.map nm2 := by
    intro nm nm2 hcomm
    rw [happ]
    conv_rhs => rw [← hflat]
    rw [List.map_flatten, List.map_map, List.map_flatten]
    congr 1
    have henum : ∀ gs : List (List OverflowEntry),
        gs.enum.map ((fun l => l.map nm) ∘ (fun gi => gi.2.map (fun e =>
          OverflowPlacement.mk e.acroName e.requestName (doc.pageCount + gi.1 + 1)))) =
          gs.map (fun g => g.map nm2) := by
      intro gs
      induction gs using List.reverseRecOn with
      | nil => simp
      | append_singleton gs g ih =>
        rw [List.enum_append]
        simp only [List.map_append, ih]
        simp [List.map_map, Function.comp_def, hcomm]
    exact henum _
  refine ⟨hflat, hgroups, hchain, happ, hmapgen _ _ (fun e pg => rfl),
    hmapgen _ _ (fun e pg => rfl), ?_⟩
  have := congrArg List.length (hmapgen (fun p => p.acroName) (fun e => e.acroName)
    (fun e pg => rfl))
  simpa using this

/-- Witness for C9 at two concrete entries that cannot share a page. -/
theorem appendOverflowPages_greedy_witness :
    ([({ acroName := ['a'], requestName := ['a'],
            text := List.replicate 40 '\n' } : OverflowEntry),
        { acroName := ['b'], requestName := ['b'], text := List.replicate 40 '\n' }] ≠
          ([] : List OverflowEntry)) ∧
      (appendOverflowPages { pageCount := 3 } (some ⟨fun _ => 1, fun _ => zero_le_one⟩)
          [{ acroName := ['a'], requestName := ['a'], text := List.replicate 40 '\n' },
            { acroName := ['b'], requestName := ['b'], text := List.replicate 40 '\n' }]
          none none).map (fun p => p.acroName) = [['a'], ['b']] := by
  constructor
  · simp
  · have h := (appendOverflowPages_greedy { pageCount := 3 }
      ⟨fun _ => 1, fun _ => zero_le_one⟩
      [{ acroName := ['a'], requestName := ['a'], text := List.replicate 40 '\n' },
        { acroName := ['b'], requestName := ['b'], text := List.replicate 40 '\n' }]
      none none (by simp)).2.2.2.2.1
    rw [h]
    with_unfolding_all rfl

/-! ### The shape of wrapped lines

A non-empty line produced by the wrapper is a sequence of non-empty,
whitespace-free tokens joined by single spaces, and it either fits the
target width or consists of a single character (the degenerate case of a
glyph wider than the whole width).  This invariant drives both the width
bound (C1) and the rewrap-stability argument (C7). -/

def NoWsStr (s : Str) : Prop := ∀ c ∈ s, isWs c = false

def GoodTokens (toks : List Str) : Prop :=
  toks ≠ [] ∧ ∀ t ∈ toks, t ≠ [] ∧ NoWsStr t

def GoodLine (f : Font) (sz w : ℚ) (L : Str) : Prop :=
  L = [] ∨ ∃ toks, GoodTokens toks ∧ L = unwords toks ∧
    (f.widthOfTextAtSize L sz ≤ w ∨ ∃ c, L = [c])

theorem width_append (f : Font) (a b : Str) (sz : ℚ) :
    f.widthOfTextAtSize (a ++ b) sz =
      f.widthOfTextAtSize a sz + f.widthOfTextAtSize b sz := by
  unfold Font.widthOfTextAtSize
  rw [List.map_append, List.sum_append, add_mul]

theorem width_nil (f : Font) (sz : ℚ) : f.widthOfTextAtSize [] sz = 0 := by
  unfold Font.widthOfTextAtSize
  simp

theorem width_nonneg (f : Font) (a : Str) (sz : ℚ) (hs : 0 ≤ sz) :
    0 ≤ f.widthOfTextAtSize a sz := by
  unfold Font.widthOfTextAtSize
  apply mul_nonneg _ hs
  apply List.sum_nonneg
  intro x hx
  rcases List.mem_map.mp hx with ⟨c, _, hc⟩
  rw [← hc]
  exact f.charWidth_nonneg c

theorem unwords_cons {l : List Str} (p : Str) (h : l ≠ []) :
    unwords (p :: l) = p ++ ' ' :: unwords l := by
  cases l with
  | nil => exact absurd rfl h
  | cons q l => rfl

theorem unwords_ne_nil {toks : List Str} (h : GoodTokens toks) : unwords toks ≠ [] := by
  rcases toks with _ | ⟨t, rest⟩
  · exact absurd rfl h.1
  · cases rest with
    | nil =>
      have := (h.2 t (by simp)).1
      simpa [unwords] using this
    | cons q l =>
      rw [unwords_cons t (by simp)]
      intro habs
      exact (h.2 t (by simp)).1 (List.append_eq_nil.mp habs).1

theorem unwords_append_single {pre : List Str} (t : Str) (h : pre ≠ []) :
    unwords (pre ++ [t]) = unwords pre ++ ' ' :: t := by
  induction pre with
  | nil => exact absurd rfl h
  | cons p pre ih =>
    cases pre with
    | nil => rfl
    | cons q l =>
      rw [List.cons_append, unwords_cons p (by simp), unwords_cons p (by simp),
        ih (by simp)]
      simp

theorem unwords_append_merge (pre : List Str) (t s : Str) :
    unwords (pre ++ [t ++ s]) = unwords (pre ++ [t]) ++ s := by
  induction pre with
  | nil => rfl
  | cons p pre ih =>
    rw [List.cons_append, List.cons_append, unwords_cons p (by simp),
      unwords_cons p (by simp), ih]
    simp

theorem unwords_mem_decomp {t : Str} {toks : List Str} (h : t ∈ toks) :
    ∃ a b, unwords toks = a ++ (t ++ b) := by
  induction toks with
  | nil => cases h
  | cons x rest ih =>
    rcases List.mem_cons.mp h with hx | hx
    · subst hx
      cases rest with
      | nil => exact ⟨[], [], by simp [unwords]⟩
      | cons q l =>
        exact ⟨[], ' ' :: unwords (q :: l), by rw [unwords_cons t (by simp)]; simp⟩
    · rcases ih hx with ⟨a, b, hab⟩
      cases rest with
      | nil => cases hx
      | cons q l =>
        refine ⟨x ++ ' ' :: a, b, ?_⟩
        rw [unwords_cons x (by simp), hab]
        simp

theorem width_token_le (f : Font) (sz w : ℚ) (hs : 0 ≤ sz) {t : Str} {toks : List Str}
    (hmem : t ∈ toks) (hw : f.widthOfTextAtSize (unwords toks) sz ≤ w) :
    f.widthOfTextAtSize t sz ≤ w := by
  rcases unwords_mem_decomp hmem with ⟨a, b, hab⟩
  rw [hab, width_append, width_append] at hw
  have ha := width_nonneg f a sz hs
  have hb := width_nonneg f b sz hs
  linarith

theorem splitWsGo_props :
    ∀ (s : Str) (acc : List Str) (cur : Str),
      (∀ t ∈ acc, t ≠ [] ∧ NoWsStr t) → NoWsStr cur →
      ∀ t ∈ splitWsGo s (acc, cur), t ≠ [] ∧ NoWsStr t := by
  intro s
  induction s with
  | nil =>
    intro acc cur hacc hcur t ht
    unfold splitWsGo at ht
    by_cases hc : cur.isEmpty
    · rw [if_pos hc] at ht
      exact hacc t ht
    · rw [if_neg hc] at ht
      rcases List.mem_append.mp ht with h | h
      · exact hacc t h
      · rw [List.mem_singleton.mp h]
        exact ⟨by simpa [List.isEmpty_iff] using hc, hcur⟩
  | cons c rest ih =>
    intro acc cur hacc hcur t ht
    unfold splitWsGo at ht
    by_cases hw : isWs c
    · rw [if_pos hw] at ht
      by_cases hc : cur.isEmpty
      · rw [if_pos hc] at ht
        exact ih acc [] hacc (by intro x hx; cases hx) t ht
      · rw [if_neg hc] at ht
        refine ih (acc ++ [cur]) [] ?_ (by intro x hx; cases hx) t ht
        intro x hx
        rcases List.mem_append.mp hx with h | h
        · exact hacc x h
        · rw [List.mem_singleton.mp h]
          exact ⟨by simpa [List.isEmpty_iff] using hc, hcur⟩
    · rw [if_neg hw] at ht
      refine ih acc (cur ++ [c]) hacc ?_ t ht
      intro x hx
      rcases List.mem_append.mp hx with h | h
      · exact hcur x h
      · rw [List.mem_singleton.mp h]
        simpa using hw

theorem splitWs_props (s : Str) : ∀ t ∈ splitWs s, t ≠ [] ∧ NoWsStr t :=
  splitWsGo_props s [] [] (by intro t ht; cases ht) (by intro c hc; cases hc)

theorem splitLongWord_fragment_props (f : Font) (sz w : ℚ) (word : Str)
    (hword : word ≠ []) (hw : 0 < w) :
    ∀ seg ∈ splitLongWord word (some f) sz (some w),
      seg ≠ [] ∧ (∀ c ∈ seg, c ∈ word) ∧
        (f.widthOfTextAtSize seg sz ≤ w ∨ ∃ c, seg = [c]) := by
  intro seg hseg
  have hw0 : ¬w ≤ 0 := not_le.mpr hw
  simp only [splitLongWord, List.isEmpty_iff, hword, hw0, if_false] at hseg
  by_cases hfits : f.widthOfTextAtSize word sz ≤ w
  · rw [if_pos hfits] at hseg
    rw [List.mem_singleton.mp hseg]
    exact ⟨hword, fun c hc => hc, Or.inl hfits⟩
  · rw [if_neg hfits] at hseg
    have hinv := foldlInvariant (splitLongWordStep f sz w)
      (fun st => (∀ p ∈ st.1, p ≠ [] ∧ (∀ c ∈ p, c ∈ word) ∧
          (f.widthOfTextAtSize p sz ≤ w ∨ ∃ c, p = [c])) ∧
        (st.2 = [] ∨ (st.2 ≠ [] ∧ (∀ c ∈ st.2, c ∈ word) ∧
          (f.widthOfTextAtSize st.2 sz ≤ w ∨ ∃ c, st.2 = [c]))))
      word ([], [])
      ⟨fun p hp => absurd hp (List.not_mem_nil p), Or.inl rfl⟩
      (by
        intro st a ha hst
        unfold splitLongWordStep
        by_cases hcond : st.2.isEmpty = true ∨ f.widthOfTextAtSize (st.2 ++ [a]) sz ≤ w
        · rw [if_pos hcond]
          refine ⟨hst.1, Or.inr ⟨by simp, ?_, ?_⟩⟩
          · intro c hc
            rcases List.mem_append.mp hc with h | h
            · rcases hst.2 with h2 | h2
              · rw [h2] at h; cases h
              · exact h2.2.1 c h
            · rw [List.mem_singleton.mp h]
              exact ha
          · rcases hcond with hc | hc
            · have : st.2 = [] := by simpa [List.isEmpty_iff] using hc
              rw [this]
              exact Or.inr ⟨a, rfl⟩
            · exact Or.inl hc
        · rw [if_neg hcond]
          push_neg at hcond
          rcases hst.2 with h2 | h2
          · exact absurd (by simp [h2] : st.2.isEmpty = true) (by simpa using hcond.1)
          · refine ⟨?_, Or.inr ⟨by simp,
              by intro c hc; rw [List.mem_singleton.mp hc]; exact ha, Or.inr ⟨a, rfl⟩⟩⟩
            intro p hp
            rcases List.mem_append.mp hp with h | h
            · exact hst.1 p h
            · rw [List.mem_singleton.mp h]
              exact h2)
    set r := word.foldl (splitLongWordStep f sz w) ([], []) with hr
    have hflatten := splitLongWord_fold_concat f sz w word ([], [])
    simp only [List.flatten_nil, List.nil_append] at hflatten
    rw [← hr] at hflatten
    by_cases h2 : r.2 = []
    · simp only [if_pos h2] at hseg
      have hr1ne : r.1 ≠ [] := by
        intro h1nil
        rw [h1nil, h2] at hflatten
        exact hword (by simpa using hflatten.symm)
      rw [if_neg hr1ne] at hseg
      exact hinv.1 seg hseg
    · simp only [if_neg h2] at hseg
      rw [if_neg (by simp)] at hseg
      rcases List.mem_append.mp hseg with h | h
      · exact hinv.1 seg h
      · rw [List.mem_singleton.mp h]
        rcases hinv.2 with hc | hc
        · exact absurd hc h2
        · exact hc

/-- The invariant carried through the wrapper's greedy fold: every closed
line and the line under construction are `GoodLine`s. -/
def WrapStInv (f : Font) (sz w : ℚ) (st : List Str × Str) : Prop :=
  (∀ L ∈ st.1, GoodLine f sz w L) ∧ GoodLine f sz w st.2

theorem goodLine_of_seg (f : Font) (sz w : ℚ) {seg : Str} (h1 : seg ≠ [])
    (h2 : NoWsStr seg) (h3 : f.widthOfTextAtSize seg sz ≤ w ∨ ∃ c, seg = [c]) :
    GoodLine f sz w seg :=
  Or.inr ⟨[seg], ⟨by simp, by intro t ht; rw [List.mem_singleton.mp ht]; exact ⟨h1, h2⟩⟩,
    rfl, h3⟩

theorem wrapAddSegment_inv (f : Font) (sz w : ℚ) (isFirst : Bool)
    (st : List Str × Str) (seg : Str) (hseg1 : seg ≠ []) (hseg2 : NoWsStr seg)
    (hseg3 : f.widthOfTextAtSize seg sz ≤ w ∨ ∃ c, seg = [c])
    (hst : WrapStInv f sz w st) :
    WrapStInv f sz w (wrapAddSegment f sz w isFirst st seg) := by
  have hsegGood := goodLine_of_seg f sz w hseg1 hseg2 hseg3
  unfold wrapAddSegment
  by_cases hcur : st.2.isEmpty
  · rw [if_pos hcur]
    exact ⟨hst.1, hsegGood⟩
  · rw [if_neg hcur]
    rcases hst.2 with hnil | ⟨toks, htoks, hunw, _⟩
    · exact absurd (by simp [hnil] : st.2.isEmpty = true) (by simpa using hcur)
    by_cases hfit :
        f.widthOfTextAtSize (st.2 ++ (if isFirst then [' '] else []) ++ seg) sz ≤ w
    · rw [if_pos hfit]
      refine ⟨hst.1, Or.inr ?_⟩
      cases isFirst with
      | true =>
        refine ⟨toks ++ [seg], ⟨by simp, ?_⟩, ?_, Or.inl hfit⟩
        · intro t ht
          rcases List.mem_append.mp ht with h | h
          · exact htoks.2 t h
          · rw [List.mem_singleton.mp h]
            exact ⟨hseg1, hseg2⟩
        · rw [unwords_append_single seg htoks.1, ← hunw]
          simp
      | false =>
        rcases List.eq_nil_or_concat toks with htn | ⟨pre, lt, hpre⟩
        · exact absurd htn htoks.1
        refine ⟨pre ++ [lt ++ seg], ⟨by simp, ?_⟩, ?_, Or.inl hfit⟩
        · intro t ht
          rcases List.mem_append.mp ht with h | h
          · exact htoks.2 t (by rw [hpre, List.concat_eq_append]; exact List.mem_append.mpr (Or.inl h))
          · rw [List.mem_singleton.mp h]
            have hlt := htoks.2 lt (by rw [hpre, List.concat_eq_append]; simp)
            refine ⟨by simp [hlt.1], ?_⟩
            intro c hc
            rcases List.mem_append.mp hc with h | h
            · exact hlt.2 c h
            · exact hseg2 c h
        · rw [unwords_append_merge pre lt seg, ← List.concat_eq_append, ← hpre, ← hunw]
          simp
    · rw [if_neg hfit]
      constructor
      · intro L hL
        rcases List.mem_append.mp hL with h | h
        · exact hst.1 L h
        · rw [List.mem_singleton.mp h]
          exact hst.2
      · exact hsegGood

theorem wrapAddWord_inv (f : Font) (sz w : ℚ) (hw : 0 < w)
    (st : List Str × Str) (word : Str) (hword1 : word ≠ []) (hword2 : NoWsStr word)
    (hst : WrapStInv f sz w st) :
    WrapStInv f sz w (wrapAddWord f sz w st word) := by
  unfold wrapAddWord
  rw [if_neg (by simpa [List.isEmpty_iff] using hword1)]
  have hfrag := splitLongWord_fragment_props f sz w word hword1 hw
  cases hsw : splitLongWord word (some f) sz (some w) with
  | nil => exact hst
  | cons s0 rest =>
    have hs0 := hfrag s0 (by rw [hsw]; simp)
    have hstep : WrapStInv f sz w (wrapAddSegment f sz w true st s0) :=
      wrapAddSegment_inv f sz w true st s0 hs0.1
        (fun c hc => hword2 c (hs0.2.1 c hc)) hs0.2.2 hst
    exact foldlInvariant (wrapAddSegment f sz w false) (WrapStInv f sz w) rest
      (wrapAddSegment f sz w true st s0) hstep
      (fun st2 seg hmem h2 => by
        have hfs := hfrag seg (by rw [hsw]; exact List.mem_cons.mpr (Or.inr hmem))
        exact wrapAddSegment_inv f sz w false st2 seg hfs.1
          (fun c hc => hword2 c (hfs.2.1 c hc)) hfs.2.2 h2)

theorem wrapParagraph_good (f : Font) (sz w : ℚ) (hw : 0 < w)
    (lines : List Str) (p : Str) (hlines : ∀ L ∈ lines, GoodLine f sz w L) :
    ∀ L ∈ wrapParagraph f sz w lines p, GoodLine f sz w L := by
  unfold wrapParagraph
  by_cases hblank : (trim p).isEmpty
  · rw [if_pos hblank]
    intro L hL
    rcases List.mem_append.mp hL with h | h
    · exact hlines L h
    · rw [List.mem_singleton.mp h]
      exact Or.inl rfl
  · rw [if_neg hblank]
    have hinv : WrapStInv f sz w
        ((splitWs (trim p)).foldl (wrapAddWord f sz w) (lines, [])) :=
      foldlInvariant (wrapAddWord f sz w) (WrapStInv f sz w) (splitWs (trim p))
        (lines, []) ⟨hlines, Or.inl rfl⟩
        (fun st word hmem h2 => by
          have hwp := splitWs_props (trim p) word hmem
          exact wrapAddWord_inv f sz w hw st word hwp.1 hwp.2 h2)
    set st := (splitWs (trim p)).foldl (wrapAddWord f sz w) (lines, []) with hstd
    intro L hL
    by_cases hcur : st.2.isEmpty
    · rw [if_pos hcur] at hL
      exact hinv.1 L hL
    · rw [if_neg hcur] at hL
      rcases List.mem_append.mp hL with h | h
      · exact hinv.1 L h
      · rw [List.mem_singleton.mp h]
        exact hinv.2

theorem wrapTextToWidth_good (text : Str) (f : Font) (sz w : ℚ) (hw : 0 < w) :
    ∀ L ∈ wrapTextToWidth text (some f) sz (some w), GoodLine f sz w L := by
  intro L hL
  by_cases ht : text.isEmpty
  · simp only [wrapTextToWidth, if_pos ht] at hL
    rw [List.mem_singleton.mp hL]
    exact Or.inl rfl
  · simp only [wrapTextToWidth, if_neg ht, if_neg (not_le.mpr hw)] at hL
    have hall : ∀ M ∈ (splitRN text).foldl (wrapParagraph f sz w) [], GoodLine f sz w M :=
      foldlInvariant (wrapParagraph f sz w) (fun ls => ∀ M ∈ ls, GoodLine f sz w M)
        (splitRN text) [] (fun M hM => absurd hM (List.not_mem_nil M))
        (fun ls p hmem h2 => wrapParagraph_good f sz w hw ls p h2)
    exact hall L (mem_stripTrailing hL)

/-! ### C1: wrap correctness (width bound) -/

/-- C1: for every text and `maxWidth > 0` (with a font available), every line
produced by `wrapTextToWidth` measures at most `maxWidth`, except that a line
may be a single glyph — which only happens when that glyph alone is wider
than `maxWidth`. -/
theorem wrapTextToWidth_width_le (text : Str) (f : Font) (fontSize maxWidth : ℚ)
    (hw : 0 < maxWidth) :
    ∀ L ∈ wrapTextToWidth text (some f) fontSize (some maxWidth),
      f.widthOfTextAtSize L fontSize ≤ maxWidth ∨
        (∃ c, L = [c] ∧ maxWidth < f.widthOfTextAtSize L fontSize) := by
  intro L hL
  rcases wrapTextToWidth_good text f fontSize maxWidth hw L hL with hnil | ⟨_, _, _, hwd⟩
  · left
    rw [hnil, width_nil]
    exact le_of_lt hw
  · rcases hwd with hfit | ⟨c, hc⟩
    · exact Or.inl hfit
    · by_cases hfit : f.widthOfTextAtSize L fontSize ≤ maxWidth
      · exact Or.inl hfit
      · exact Or.inr ⟨c, hc, not_le.mp hfit⟩

/-- Witness for C1 at a concrete text and width. -/
theorem wrapTextToWidth_width_le_witness :
    (0 : ℚ) < 5 ∧
      (∀ L ∈ wrapTextToWidth ['a', 'b', ' ', 'c', 'd', 'e', 'f', 'g', 'h']
          (some ⟨fun _ => 1, fun _ => zero_le_one⟩) 1 (some 5),
        Font.widthOfTextAtSize ⟨fun _ => 1, fun _ => zero_le_one⟩ L 1 ≤ 5 ∨
          (∃ c, L = [c] ∧ 5 < Font.widthOfTextAtSize ⟨fun _ => 1, fun _ => zero_le_one⟩ L 1)) :=
  ⟨by norm_num,
    wrapTextToWidth_width_le ['a', 'b', ' ', 'c', 'd', 'e', 'f', 'g', 'h']
      ⟨fun _ => 1, fun _ => zero_le_one⟩ 1 5 (by norm_num)⟩

/-! ### More helpers: shapes of good lines, blank accounting, shrink loop -/

theorem dropWhile_eq_self_of_head {l : Str} (h : l ≠ []) (hh : isWs (l.head h) = false) :
    l.dropWhile isWs = l := by
  cases l with
  | nil => exact absurd rfl h
  | cons a l => rw [List.dropWhile_cons, if_neg (by simpa using hh)]

theorem trim_eq_self_of_ends {s : Str} (h : s ≠ []) (hh : isWs (s.head h) = false)
    (hl : isWs (s.getLast h) = false) : trim s = s := by
  unfold trim
  rw [dropWhile_eq_self_of_head h hh]
  have hrne : s.reverse ≠ [] := by simpa using h
  rw [dropWhile_eq_self_of_head hrne (by rw [List.head_reverse]; exact hl)]
  exact s.reverse_reverse

theorem unwords_head_mem {toks : List Str} (h : GoodTokens toks)
    (hne : unwords toks ≠ []) : ∃ t ∈ toks, (unwords toks).head hne ∈ t := by
  rcases toks with _ | ⟨t0, rest⟩
  · exact absurd rfl h.1
  · have ht0 : t0 ≠ [] := (h.2 t0 (by simp)).1
    cases rest with
    | nil =>
      refine ⟨t0, by simp, ?_⟩
      exact List.head_mem hne
    | cons q l =>
      refine ⟨t0, by simp, ?_⟩
      have hopt : (unwords (t0 :: q :: l)).head? = some (t0.head ht0) := by
        rw [unwords_cons t0 (by simp), List.head?_append_of_ne_nil _ ht0]
        exact List.head?_eq_head ht0
      have hopt2 : (unwords (t0 :: q :: l)).head? =
          some ((unwords (t0 :: q :: l)).head hne) := List.head?_eq_head hne
      rw [hopt2, Option.some_inj] at hopt
      rw [hopt]
      exact List.head_mem ht0

theorem unwords_getLast_mem {toks : List Str} (h : GoodTokens toks)
    (hne : unwords toks ≠ []) : ∃ t ∈ toks, (unwords toks).getLast hne ∈ t := by
  rcases List.eq_nil_or_concat toks with htn | ⟨pre, lt, hpre⟩
  · exact absurd htn h.1
  · have hlt : lt ≠ [] := (h.2 lt (by rw [hpre, List.concat_eq_append]; simp)).1
    refine ⟨lt, by rw [hpre, List.concat_eq_append]; simp, ?_⟩
    have hopt2 : (unwords toks).getLast? = some ((unwords toks).getLast hne) :=
      List.getLast?_eq_getLast _ hne
    rcases pre with _ | ⟨p0, pre⟩
    · subst hpre
      exact List.getLast_mem hne
    · have heq : unwords toks = unwords (p0 :: pre) ++ ' ' :: lt := by
        rw [hpre, List.concat_eq_append]
        exact unwords_append_single lt (by simp)
      have hopt : (unwords toks).getLast? = some (lt.getLast hlt) := by
        rw [heq, List.getLast?_append, List.getLast?_eq_getLast (' ' :: lt) (by simp),
          List.getLast_cons hlt]
        simp
      rw [hopt2, Option.some_inj] at hopt
      rw [hopt]
      exact List.getLast_mem hlt

theorem goodLine_trim (f : Font) (sz w : ℚ) {L : Str} (hL : GoodLine f sz w L) :
    trim L = L := by
  rcases hL with hnil | ⟨toks, htoks, hunw, _⟩
  · rw [hnil]
    rfl
  · subst hunw
    have hne := unwords_ne_nil htoks
    rcases unwords_head_mem htoks hne with ⟨t1, ht1, hh⟩
    rcases unwords_getLast_mem htoks hne with ⟨t2, ht2, hl⟩
    exact trim_eq_self_of_ends hne ((htoks.2 t1 ht1).2 _ hh) ((htoks.2 t2 ht2).2 _ hl)

theorem goodLine_nonblank (f : Font) (sz w : ℚ) {L : Str} (hL : GoodLine f sz w L)
    (hne : L ≠ []) : (trim L).isEmpty = false := by
  rw [goodLine_trim f sz w hL]
  simpa [List.isEmpty_iff] using hne

theorem splitRN_cons_default (c0 : Char) (rest : Str) (l : Str) (ls : List Str)
    (h1 : ∀ rest1, c0 = '\r' → rest = '\n' :: rest1 → False)
    (h2 : c0 = '\n' → False)
    (hrest : splitRN rest = l :: ls) :
    splitRN (c0 :: rest) = (c0 :: l) :: ls := by
  rw [splitRN.eq_def]
  split
  · rename_i heq
    cases heq
  · rename_i rest1 heq
    injection heq with heq1 heq2
    exact (h1 _ heq1 heq2).elim
  · rename_i rest1 heq
    injection heq with heq1 heq2
    exact (h2 heq1).elim
  · rename_i c' rest' hh1 hh2 heq
    injection heq with heq1 heq2
    subst heq1
    subst heq2
    rw [hrest]

theorem splitRN_covers : ∀ (text : Str) (c : Char), c ∈ text →
    c = '\n' ∨ c = '\r' ∨ ∃ p ∈ splitRN text, c ∈ p := by
  intro text
  induction text using splitRN.induct with
  | case1 => intro c hc; cases hc
  | case2 rest ih =>
    intro c hc
    rcases List.mem_cons.mp hc with h | hc
    · exact Or.inr (Or.inl h)
    rcases List.mem_cons.mp hc with h | hc
    · exact Or.inl h
    rcases ih c hc with h | h | ⟨p, hp, hcp⟩
    · exact Or.inl h
    · exact Or.inr (Or.inl h)
    · exact Or.inr (Or.inr ⟨p, by simp [splitRN, hp], hcp⟩)
  | case3 rest ih =>
    intro c hc
    rcases List.mem_cons.mp hc with h | hc
    · exact Or.inl h
    rcases ih c hc with h | h | ⟨p, hp, hcp⟩
    · exact Or.inl h
    · exact Or.inr (Or.inl h)
    · exact Or.inr (Or.inr ⟨p, by simp [splitRN, hp], hcp⟩)
  | case4 c0 rest h1 h2 h3 ih => exact absurd h3 (splitRN_ne_nil rest)
  | case5 c0 rest h1 h2 l ls hrest ih =>
    intro c hc
    have hsplit : splitRN (c0 :: rest) = (c0 :: l) :: ls :=
      splitRN_cons_default c0 rest l ls h1 h2 hrest
    rcases List.mem_cons.mp hc with h | hc
    · subst h
      exact Or.inr (Or.inr ⟨c :: l, by simp [hsplit], by simp⟩)
    rcases ih c hc with h | h | ⟨p, hp, hcp⟩
    · exact Or.inl h
    · exact Or.inr (Or.inl h)
    · rw [hrest] at hp
      rcases List.mem_cons.mp hp with h | h
      · exact Or.inr (Or.inr ⟨c0 :: l, by simp [hsplit], by simp [← h, hcp]⟩)
      · exact Or.inr (Or.inr ⟨p, by simp [hsplit, h], hcp⟩)

theorem stripTrailing_drop_nonblank {l : List Str} {k : ℕ}
    (h : (stripTrailingEmptyLines l).drop k ≠ []) :
    ∃ x ∈ (stripTrailingEmptyLines l).drop k, (trim x).isEmpty = false := by
  have htne : stripTrailingEmptyLines l ≠ [] := by
    intro h0
    rw [h0] at h
    simp at h
  have hx := stripTrailing_getLast (l := l) htne
  refine ⟨(stripTrailingEmptyLines l).getLast htne, ?_, hx⟩
  have h1 : (stripTrailingEmptyLines l).getLast? =
      some ((stripTrailingEmptyLines l).getLast htne) :=
    List.getLast?_eq_getLast _ htne
  have h2 : (stripTrailingEmptyLines l).getLast? =
      ((stripTrailingEmptyLines l).drop k).getLast? := by
    conv_lhs => rw [← List.take_append_drop k (stripTrailingEmptyLines l)]
    rw [List.getLast?_append, List.getLast?_eq_getLast _ h]
    simp
  rw [h2, List.getLast?_eq_getLast _ h, Option.some_inj] at h1
  rw [← h1]
  exact List.getLast_mem h

theorem mem_stripLeading_of_nonblank {x : Str} {l : List Str} (hx : x ∈ l)
    (hnb : (trim x).isEmpty = false) : x ∈ stripLeadingEmptyLines l := by
  have hd := stripLeading_decomp l
  rcases List.mem_append.mp (hd ▸ hx) with h | h
  · have := List.mem_takeWhile_imp h
    simp only at this
    rw [this] at hnb
    cases hnb
  · exact h

theorem buildFieldLayout_applied (text : Str) (f : Font) (multiline : Bool)
    (lhm width height s : ℚ) :
    (buildFieldLayout text f multiline lhm width height s).appliedFontSize = s := by
  unfold buildFieldLayout
  by_cases hm : multiline = true
  · rw [if_pos hm]
  · rw [if_neg hm]

theorem shrinkGo_stop (build : ℚ → FieldLayoutResult) (minFontSize w : ℚ)
    (layout : FieldLayoutResult)
    (h : ¬(layout.overflowDetected = true ∧ minFontSize < w)) :
    shrinkGo build minFontSize w layout = ([], layout) := by
  rw [shrinkGo, dif_neg h]

theorem shrinkGo_break (build : ℚ → FieldLayoutResult) (minFontSize w : ℚ)
    (layout : FieldLayoutResult)
    (h1 : layout.overflowDetected = true ∧ minFontSize < w)
    (h2 : (build (max minFontSize (w - 1/2))).overflowDetected = false ∨
      max minFontSize (w - 1/2) ≤ minFontSize) :
    shrinkGo build minFontSize w layout =
      ([max minFontSize (w - 1/2)], build (max minFontSize (w - 1/2))) := by
  rw [shrinkGo, dif_pos h1]
  exact if_pos h2

theorem shrinkGo_cont (build : ℚ → FieldLayoutResult) (minFontSize w : ℚ)
    (layout : FieldLayoutResult)
    (h1 : layout.overflowDetected = true ∧ minFontSize < w)
    (h2 : ¬((build (max minFontSize (w - 1/2))).overflowDetected = false ∨
      max minFontSize (w - 1/2) ≤ minFontSize)) :
    shrinkGo build minFontSize w layout =
      (max minFontSize (w - 1/2) ::
          (shrinkGo build minFontSize (max minFontSize (w - 1/2))
            (build (max minFontSize (w - 1/2)))).1,
        (shrinkGo build minFontSize (max minFontSize (w - 1/2))
          (build (max minFontSize (w - 1/2)))).2) := by
  rw [shrinkGo, dif_pos h1]
  exact if_neg h2

theorem shrinkGo_spec (build : ℚ → FieldLayoutResult) (minFontSize : ℚ)
    (happ : ∀ s, (build s).appliedFontSize = s) :
    ∀ (w : ℚ) (layout : FieldLayoutResult), layout = build w →
      (shrinkGo build minFontSize w layout).2 =
          build (shrinkGo build minFontSize w layout).2.appliedFontSize ∧
        (shrinkGo build minFontSize w layout).2.appliedFontSize ≤ w ∧
        ((shrinkGo build minFontSize w layout).2.appliedFontSize = w ∨
          minFontSize ≤ (shrinkGo build minFontSize w layout).2.appliedFontSize) ∧
        ((shrinkGo build minFontSize w layout).2.overflowDetected = false ∨
          (shrinkGo build minFontSize w layout).2.appliedFontSize ≤ minFontSize) ∧
        List.Chain' (fun a b => b = max minFontSize (a - 1/2))
          (w :: (shrinkGo build minFontSize w layout).1) ∧
        List.Chain' (fun a b => b ≤ a) (w :: (shrinkGo build minFontSize w layout).1) ∧
        (w :: (shrinkGo build minFontSize w layout).1).getLast (List.cons_ne_nil w _) =
          (shrinkGo build minFontSize w layout).2.appliedFontSize := by
  intro w layout
  induction w, layout using shrinkGo.induct build minFontSize with
  | case1 w layout hguard =>
    intro hlay
    rename_i w2 layout2 hbreak
    have heq := shrinkGo_break build minFontSize w layout hguard hbreak
    rw [heq]
    simp only
    have hw2le : max minFontSize (w - 1/2) ≤ w := by
      apply max_le (le_of_lt hguard.2)
      linarith
    refine ⟨by rw [happ], by rw [happ]; exact hw2le,
      by rw [happ]; right; exact le_max_left _ _, ?_, ?_, ?_, ?_⟩
    · rw [happ]
      exact hbreak
    · exact List.chain'_pair.mpr rfl
    · exact List.chain'_pair.mpr hw2le
    · rw [happ]
      rfl
  | case2 w layout hguard =>
    intro hlay
    rename_i w2 layout2 hbreak ih
    have heq := shrinkGo_cont build minFontSize w layout hguard hbreak
    rw [heq]
    simp only
    have hw2le : max minFontSize (w - 1/2) ≤ w := by
      apply max_le (le_of_lt hguard.2)
      linarith
    obtain ⟨ih1, ih2, ih3, ih4, ih5, ih6, ih7⟩ := ih rfl
    refine ⟨ih1, le_trans ih2 hw2le, ?_, ih4, ?_, ?_, ?_⟩
    · rcases ih3 with h | h
      · rw [h]
        right
        exact le_max_left _ _
      · exact Or.inr h
    · exact List.chain'_cons.mpr ⟨rfl, ih5⟩
    · exact List.chain'_cons.mpr ⟨hw2le, ih6⟩
    · rw [← ih7]
      rw [List.getLast_cons (List.cons_ne_nil _ _)]
  | case3 w layout hguard =>
    intro hlay
    have heq := shrinkGo_stop build minFontSize w layout hguard
    rw [heq]
    simp only
    refine ⟨?_, ?_, ?_, ?_, by simp, by simp, by simp [hlay, happ]⟩
    · conv_rhs => rw [hlay, happ]
      exact hlay
    · rw [hlay, happ]
    · rw [hlay, happ]
      exact Or.inl rfl
    · rcases not_and_or.mp hguard with h | h
      · left
        simpa using h
      · right
        rw [hlay, happ]
        exact le_of_not_lt h

theorem layoutTextForField_build (o : FieldLayoutOptions) (f : Font) (wd : Widget)
    (hf : o.font = some f) (hw : o.widget = some wd) :
    layoutTextForField o =
        (shrinkGo
          (buildFieldLayout o.value f o.multiline o.lineHeightMultiplier
            (max (wd.x2 - wd.x1 - TEXT_FIELD_INNER_PADDING * 2) 1)
            (max (wd.y2 - wd.y1 - TEXT_FIELD_INNER_PADDING * 2) o.fontSize))
          o.minFontSize o.fontSize
          (buildFieldLayout o.value f o.multiline o.lineHeightMultiplier
            (max (wd.x2 - wd.x1 - TEXT_FIELD_INNER_PADDING * 2) 1)
            (max (wd.y2 - wd.y1 - TEXT_FIELD_INNER_PADDING * 2) o.fontSize) o.fontSize)).2 ∧
      layoutTextForFieldTrace o =
        o.fontSize ::
          (shrinkGo
            (buildFieldLayout o.value f o.multiline o.lineHeightMultiplier
              (max (wd.x2 - wd.x1 - TEXT_FIELD_INNER_PADDING * 2) 1)
              (max (wd.y2 - wd.y1 - TEXT_FIELD_INNER_PADDING * 2) o.fontSize))
            o.minFontSize o.fontSize
            (buildFieldLayout o.value f o.multiline o.lineHeightMultiplier
              (max (wd.x2 - wd.x1 - TEXT_FIELD_INNER_PADDING * 2) 1)
              (max (wd.y2 - wd.y1 - TEXT_FIELD_INNER_PADDING * 2) o.fontSize) o.fontSize)).1 := by
  constructor
  · simp only [layoutTextForField, hf, hw]
  · simp only [layoutTextForFieldTrace, hf, hw]

/-- The facts delivered by the shrink loop at the `layoutTextForField` level:
the result is one `buildLayout` evaluation at the applied size, the applied
size never exceeds the requested one and is clamped at `minFontSize` when
shrinking happened, and the loop stops only with no overflow or at the floor. -/
theorem layoutTextForField_spec (o : FieldLayoutOptions) (f : Font) (wd : Widget)
    (hf : o.font = some f) (hw : o.widget = some wd) :
    layoutTextForField o =
        buildFieldLayout o.value f o.multiline o.lineHeightMultiplier
          (max (wd.x2 - wd.x1 - TEXT_FIELD_INNER_PADDING * 2) 1)
          (max (wd.y2 - wd.y1 - TEXT_FIELD_INNER_PADDING * 2) o.fontSize)
          (layoutTextForField o).appliedFontSize ∧
      (layoutTextForField o).appliedFontSize ≤ o.fontSize ∧
      ((layoutTextForField o).appliedFontSize = o.fontSize ∨
        o.minFontSize ≤ (layoutTextForField o).appliedFontSize) ∧
      ((layoutTextForField o).overflowDetected = false ∨
        (layoutTextForField o).appliedFontSize ≤ o.minFontSize) := by
  obtain ⟨hb, _⟩ := layoutTextForField_build o f wd hf hw
  obtain ⟨s1, s2, s3, s4, _, _, _⟩ := shrinkGo_spec _ o.minFontSize
    (fun s => buildFieldLayout_applied _ _ _ _ _ _ s) o.fontSize _ rfl
  rw [hb]
  exact ⟨s1, s2, s3, s4⟩

/-! ### C5: the shrink loop of layoutTextForField -/

/-- C5: with a font and widget present, the candidate font sizes tried by
`layoutTextForField` start at `policy.fontSize` and each subsequent candidate
is the previous one lowered by the fixed 0.5 step (clamped at `minFontSize`);
the sequence is monotonically non-increasing and ends at the applied size.
Consequently `appliedFontSize` never exceeds `policy.fontSize`, is at least
`minFontSize` whenever shrinking occurred, and the loop stops only once
overflow has cleared or the applied size has reached `minFontSize`. -/
theorem layoutTextForField_shrink (o : FieldLayoutOptions) (f : Font) (wd : Widget)
    (hf : o.font = some f) (hw : o.widget = some wd) :
    (layoutTextForFieldTrace o).head? = some o.fontSize ∧
      List.Chain' (fun a b => b = max o.minFontSize (a - 1/2)) (layoutTextForFieldTrace o) ∧
      List.Chain' (fun a b => b ≤ a) (layoutTextForFieldTrace o) ∧
      (layoutTextForFieldTrace o).getLast? =
        some (layoutTextForField o).appliedFontSize ∧
      (layoutTextForField o).appliedFontSize ≤ o.fontSize ∧
      ((layoutTextForField o).appliedFontSize = o.fontSize ∨
        o.minFontSize ≤ (layoutTextForField o).appliedFontSize) ∧
      ((layoutTextForField o).overflowDetected = false ∨
        (layoutTextForField o).appliedFontSize ≤ o.minFontSize) := by
  obtain ⟨hb, ht⟩ := layoutTextForField_build o f wd hf hw
  obtain ⟨s1, s2, s3, s4, s5, s6, s7⟩ := shrinkGo_spec _ o.minFontSize
    (fun s => buildFieldLayout_applied _ _ _ _ _ _ s) o.fontSize _ rfl
  rw [hb, ht]
  refine ⟨rfl, s5, s6, ?_, s2, s3, s4⟩
  rw [List.getLast?_eq_getLast _ (List.cons_ne_nil _ _), s7]

/-- A shared concrete font for witnesses: every character one unit wide. -/
def unitFont : Font := ⟨fun _ => 1, fun _ => zero_le_one⟩

/-- A shared concrete option record for witnesses. -/
def witnessOpts : FieldLayoutOptions :=
  { value := ['a', '\n', 'b'], font := some unitFont, fontSize := 10, multiline := true
    lineHeightMultiplier := 6/5, widget := some ⟨0, 0, 104, 40⟩, minFontSize := 7 }

/-- Witness for C5 at a concrete layout call. -/
theorem layoutTextForField_shrink_witness :
    (witnessOpts.font = some unitFont ∧ witnessOpts.widget = some ⟨0, 0, 104, 40⟩) ∧
      ((layoutTextForFieldTrace witnessOpts).head? = some witnessOpts.fontSize ∧
        List.Chain' (fun a b => b = max witnessOpts.minFontSize (a - 1/2))
          (layoutTextForFieldTrace witnessOpts) ∧
        List.Chain' (fun a b => b ≤ a) (layoutTextForFieldTrace witnessOpts) ∧
        (layoutTextForFieldTrace witnessOpts).getLast? =
          some (layoutTextForField witnessOpts).appliedFontSize ∧
        (layoutTextForField witnessOpts).appliedFontSize ≤ witnessOpts.fontSize ∧
        ((layoutTextForField witnessOpts).appliedFontSize = witnessOpts.fontSize ∨
          witnessOpts.minFontSize ≤ (layoutTextForField witnessOpts).appliedFontSize) ∧
        ((layoutTextForField witnessOpts).overflowDetected = false ∨
          (layoutTextForField witnessOpts).appliedFontSize ≤ witnessOpts.minFontSize)) :=
  ⟨⟨rfl, rfl⟩, layoutTextForField_shrink witnessOpts unitFont ⟨0, 0, 104, 40⟩ rfl rfl⟩

/-! ### Non-blank text yields a non-blank wrapped line -/

theorem trim_decomp (s : Str) :
    ∃ a b, s = a ++ trim s ++ b ∧ (∀ c ∈ a, isWs c = true) ∧ ∀ c ∈ b, isWs c = true := by
  refine ⟨s.takeWhile isWs, ((s.dropWhile isWs).reverse.takeWhile isWs).reverse, ?_, ?_, ?_⟩
  · have h1 : s = s.takeWhile isWs ++ s.dropWhile isWs :=
      (List.takeWhile_append_dropWhile _ _).symm
    have h2 : s.dropWhile isWs =
        ((s.dropWhile isWs).reverse.dropWhile isWs).reverse ++
          ((s.dropWhile isWs).reverse.takeWhile isWs).reverse := by
      rw [← List.reverse_append, List.takeWhile_append_dropWhile, List.reverse_reverse]
    conv_lhs => rw [h1, h2]
    rw [← List.append_assoc]
    rfl
  · intro c hc
    exact List.mem_takeWhile_imp hc
  · intro c hc
    rw [List.mem_reverse] at hc
    exact List.mem_takeWhile_imp hc

theorem exists_nonws_mem_trim {s : Str} (h : trim s ≠ []) :
    ∃ c ∈ trim s, isWs c = false := by
  by_contra hall
  push_neg at hall
  rcases trim_decomp s with ⟨a, b, hdec, ha, hb⟩
  have : trim s = [] := by
    rw [trim_eq_nil_iff]
    intro c hc
    rw [hdec] at hc
    rcases List.mem_append.mp hc with hc2 | hc2
    · rcases List.mem_append.mp hc2 with hc3 | hc3
      · exact ha c hc3
      · simpa using hall c hc3
    · exact hb c hc2
  exact h this

theorem splitWsGo_ne_nil :
    ∀ (s : Str) (acc : List Str) (cur : Str),
      (∃ c ∈ s, isWs c = false) ∨ acc ≠ [] ∨ cur ≠ [] →
        splitWsGo s (acc, cur) ≠ [] := by
  intro s
  induction s with
  | nil =>
    intro acc cur h
    unfold splitWsGo
    rcases h with ⟨c, hc, _⟩ | h | h
    · cases hc
    · by_cases hcur : cur.isEmpty
      · rw [if_pos hcur]
        exact h
      · rw [if_neg hcur]
        simp
    · rw [if_neg (by simpa [List.isEmpty_iff] using h)]
      simp
  | cons c rest ih =>
    intro acc cur h
    unfold splitWsGo
    by_cases hw : isWs c
    · rw [if_pos hw]
      by_cases hcur : cur.isEmpty
      · rw [if_pos hcur]
        apply ih
        rcases h with ⟨x, hx, hxw⟩ | h | h
        · rcases List.mem_cons.mp hx with h2 | h2
          · rw [h2] at hxw
            rw [hxw] at hw
            cases hw
          · exact Or.inl ⟨x, h2, hxw⟩
        · exact Or.inr (Or.inl h)
        · exact absurd (by simpa [List.isEmpty_iff] using hcur) h
      · rw [if_neg hcur]
        apply ih
        right
        left
        simp
    · rw [if_neg hw]
      apply ih
      right
      right
      simp

theorem wrapAddSegment_cur_ne (f : Font) (sz w : ℚ) (isFirst : Bool)
    (st : List Str × Str) (seg : Str) (hseg : seg ≠ []) :
    (wrapAddSegment f sz w isFirst st seg).2 ≠ [] := by
  unfold wrapAddSegment
  by_cases hcur : st.2.isEmpty
  · rw [if_pos hcur]
    exact hseg
  · rw [if_neg hcur]
    by_cases hfit : f.widthOfTextAtSize (st.2 ++ (if isFirst then [' '] else []) ++ seg) sz ≤ w
    · rw [if_pos hfit]
      simp [hseg]
    · rw [if_neg hfit]
      exact hseg

theorem wrapAddWord_cur_ne (f : Font) (sz w : ℚ) (hw : 0 < w)
    (st : List Str × Str) (word : Str) (hword : word ≠ []) :
    (wrapAddWord f sz w st word).2 ≠ [] := by
  unfold wrapAddWord
  rw [if_neg (by simpa [List.isEmpty_iff] using hword)]
  have hfrag := splitLongWord_fragment_props f sz w word hword hw
  have hne := (splitLongWord_flatten_ne_nil word (some f) sz (some w) hword).2
  cases hsw : splitLongWord word (some f) sz (some w) with
  | nil => exact absurd hsw hne
  | cons s0 rest =>
    have hstep : (wrapAddSegment f sz w true st s0).2 ≠ [] :=
      wrapAddSegment_cur_ne f sz w true st s0 (hfrag s0 (by rw [hsw]; simp)).1
    exact foldlInvariant (wrapAddSegment f sz w false) (fun st2 => st2.2 ≠ []) rest
      (wrapAddSegment f sz w true st s0) hstep
      (fun st2 seg hmem _ => wrapAddSegment_cur_ne f sz w false st2 seg
        (hfrag seg (by rw [hsw]; exact List.mem_cons.mpr (Or.inr hmem))).1)

theorem foldl_lines_prefix {α : Type _} (step : List Str × Str → α → List Str × Str)
    (hstep : ∀ st a, ∃ ext, (step st a).1 = st.1 ++ ext) :
    ∀ (l : List α) (st : List Str × Str), ∃ ext, (l.foldl step st).1 = st.1 ++ ext := by
  intro l
  induction l with
  | nil => intro st; exact ⟨[], by simp⟩
  | cons a rest ih =>
    intro st
    rcases hstep st a with ⟨e1, he1⟩
    rcases ih (step st a) with ⟨e2, he2⟩
    exact ⟨e1 ++ e2, by rw [List.foldl_cons, he2, he1, List.append_assoc]⟩

theorem wrapAddSegment_lines_prefix (f : Font) (sz w : ℚ) (isFirst : Bool)
    (st : List Str × Str) (seg : Str) :
    ∃ ext, (wrapAddSegment f sz w isFirst st seg).1 = st.1 ++ ext := by
  unfold wrapAddSegment
  by_cases hcur : st.2.isEmpty
  · rw [if_pos hcur]
    exact ⟨[], by simp⟩
  · rw [if_neg hcur]
    by_cases hfit : f.widthOfTextAtSize (st.2 ++ (if isFirst then [' '] else []) ++ seg) sz ≤ w
    · rw [if_pos hfit]
      exact ⟨[], by simp⟩
    · rw [if_neg hfit]
      exact ⟨[st.2], rfl⟩

theorem wrapAddWord_lines_prefix (f : Font) (sz w : ℚ) (st : List Str × Str)
    (word : Str) : ∃ ext, (wrapAddWord f sz w st word).1 = st.1 ++ ext := by
  unfold wrapAddWord
  by_cases hword : word.isEmpty
  · rw [if_pos hword]
    exact ⟨[], by simp⟩
  · rw [if_neg hword]
    cases hsw : splitLongWord word (some f) sz (some w) with
    | nil => exact ⟨[], by simp⟩
    | cons s0 rest =>
      rcases wrapAddSegment_lines_prefix f sz w true st s0 with ⟨e1, he1⟩
      rcases foldl_lines_prefix (wrapAddSegment f sz w false)
        (fun st2 seg => wrapAddSegment_lines_prefix f sz w false st2 seg) rest
        (wrapAddSegment f sz w true st s0) with ⟨e2, he2⟩
      exact ⟨e1 ++ e2, by rw [he2, he1, List.append_assoc]⟩

theorem wrapParagraph_lines_prefix (f : Font) (sz w : ℚ) (lines : List Str)
    (p : Str) : ∃ ext, wrapParagraph f sz w lines p = lines ++ ext := by
  unfold wrapParagraph
  by_cases hblank : (trim p).isEmpty
  · rw [if_pos hblank]
    exact ⟨[[]], rfl⟩
  · rw [if_neg hblank]
    rcases foldl_lines_prefix (wrapAddWord f sz w)
      (fun st word => wrapAddWord_lines_prefix f sz w st word)
      (splitWs (trim p)) (lines, []) with ⟨e, he⟩
    by_cases hcur : ((splitWs (trim p)).foldl (wrapAddWord f sz w) (lines, [])).2.isEmpty
    · rw [if_pos hcur]
      exact ⟨e, he⟩
    · rw [if_neg hcur]
      refine ⟨e ++ [((splitWs (trim p)).foldl (wrapAddWord f sz w) (lines, [])).2], ?_⟩
      rw [he, List.append_assoc]

theorem wrapAddSegment_cur_indep (f : Font) (sz w : ℚ) (isFirst : Bool)
    (st1 st2 : List Str × Str) (seg : Str) (h : st1.2 = st2.2) :
    (wrapAddSegment f sz w isFirst st1 seg).2 =
      (wrapAddSegment f sz w isFirst st2 seg).2 := by
  unfold wrapAddSegment
  rw [h]
  by_cases hcur : st2.2.isEmpty
  · rw [if_pos hcur, if_pos hcur]
  · rw [if_neg hcur, if_neg hcur]
    by_cases hfit : f.widthOfTextAtSize (st2.2 ++ (if isFirst then [' '] else []) ++ seg) sz ≤ w
    · rw [if_pos hfit, if_pos hfit]
    · rw [if_neg hfit, if_neg hfit]

theorem foldlSeg_cur_indep (f : Font) (sz w : ℚ) :
    ∀ (rest : List Str) (st1 st2 : List Str × Str), st1.2 = st2.2 →
      (rest.foldl (wrapAddSegment f sz w false) st1).2 =
        (rest.foldl (wrapAddSegment f sz w false) st2).2 := by
  intro rest
  induction rest with
  | nil => intro st1 st2 h; exact h
  | cons seg rest ih =>
    intro st1 st2 h
    rw [List.foldl_cons, List.foldl_cons]
    exact ih _ _ (wrapAddSegment_cur_indep f sz w false st1 st2 seg h)

theorem wrapAddWord_cur_indep (f : Font) (sz w : ℚ) (st1 st2 : List Str × Str)
    (word : Str) (h : st1.2 = st2.2) :
    (wrapAddWord f sz w st1 word).2 = (wrapAddWord f sz w st2 word).2 := by
  unfold wrapAddWord
  by_cases hword : word.isEmpty
  · simp only [if_pos hword]
    exact h
  · simp only [if_neg hword]
    cases hsw : splitLongWord word (some f) sz (some w) with
    | nil => exact h
    | cons s0 rest =>
      exact foldlSeg_cur_indep f sz w rest _ _
        (wrapAddSegment_cur_indep f sz w true st1 st2 s0 h)

theorem foldlWord_cur_indep (f : Font) (sz w : ℚ) :
    ∀ (words : List Str) (st1 st2 : List Str × Str), st1.2 = st2.2 →
      (words.foldl (wrapAddWord f sz w) st1).2 =
        (words.foldl (wrapAddWord f sz w) st2).2 := by
  intro words
  induction words with
  | nil => intro st1 st2 h; exact h
  | cons word words ih =>
    intro st1 st2 h
    rw [List.foldl_cons, List.foldl_cons]
    exact ih _ _ (wrapAddWord_cur_indep f sz w st1 st2 word h)

theorem wrapParagraph_nonblank (f : Font) (sz w : ℚ) (hw : 0 < w)
    (lines : List Str) (p : Str) (hp : (trim p).isEmpty = false) :
    ∃ L ∈ wrapParagraph f sz w lines p, (trim L).isEmpty = false := by
  have hpne : trim p ≠ [] := by simpa [List.isEmpty_iff] using hp
  have hwords : splitWs (trim p) ≠ [] := by
    rcases exists_nonws_mem_trim hpne with ⟨c, hc, hcw⟩
    exact splitWsGo_ne_nil (trim p) [] [] (Or.inl ⟨c, hc, hcw⟩)
  set st := (splitWs (trim p)).foldl (wrapAddWord f sz w) (lines, []) with hst
  have hGood : GoodLine f sz w st.2 := by
    have h0 : WrapStInv f sz w ((splitWs (trim p)).foldl (wrapAddWord f sz w) ([], [])) :=
      foldlInvariant (wrapAddWord f sz w) (WrapStInv f sz w) (splitWs (trim p))
        ([], []) ⟨fun L hL => absurd hL (List.not_mem_nil L), Or.inl rfl⟩
        (fun st2 word hmem h2 => by
          have hwp := splitWs_props (trim p) word hmem
          exact wrapAddWord_inv f sz w hw st2 word hwp.1 hwp.2 h2)
    rw [hst, foldlWord_cur_indep f sz w (splitWs (trim p)) (lines, []) ([], []) rfl]
    exact h0.2
  have hcurne : st.2 ≠ [] := by
    rcases List.eq_nil_or_concat (splitWs (trim p)) with hn | ⟨pre, lastw, hpre⟩
    · exact absurd hn hwords
    have hlastw : lastw ≠ [] := (splitWs_props (trim p) lastw
      (by rw [hpre, List.concat_eq_append]; simp)).1
    rw [hst, hpre, List.concat_eq_append, List.foldl_append, List.foldl_cons,
      List.foldl_nil]
    exact wrapAddWord_cur_ne f sz w hw _ lastw hlastw
  have hnb : (trim st.2).isEmpty = false := goodLine_nonblank f sz w hGood hcurne
  refine ⟨st.2, ?_, hnb⟩
  have hc1 : ¬((trim p).isEmpty = true) := by simp [hp]
  simp only [wrapParagraph, if_neg hc1]
  rw [← hst]
  rw [if_neg (by simpa [List.isEmpty_iff] using hcurne)]
  simp

theorem mem_stripTrailing_of_nonblank {x : Str} {l : List Str} (hx : x ∈ l)
    (hnb : (trim x).isEmpty = false) : x ∈ stripTrailingEmptyLines l := by
  rcases stripTrailing_decomp l with ⟨rest, hdec, hrest⟩
  rcases List.mem_append.mp (by rw [← hdec]; exact hx) with h | h
  · exact h
  · rw [hrest x h] at hnb
    cases hnb

theorem foldl_para_prefix (f : Font) (sz w : ℚ) :
    ∀ (ps : List Str) (lines : List Str),
      ∃ ext, ps.foldl (wrapParagraph f sz w) lines = lines ++ ext := by
  intro ps
  induction ps with
  | nil => intro lines; exact ⟨[], by simp⟩
  | cons p ps ih =>
    intro lines
    rcases wrapParagraph_lines_prefix f sz w lines p with ⟨e1, he1⟩
    rcases ih (wrapParagraph f sz w lines p) with ⟨e2, he2⟩
    exact ⟨e1 ++ e2, by rw [List.foldl_cons, he2, he1, List.append_assoc]⟩

theorem wrapTextToWidth_main (text : Str) (f : Font) (sz w : ℚ)
    (htext : text ≠ []) (hw : 0 < w) :
    wrapTextToWidth text (some f) sz (some w) =
      stripTrailingEmptyLines ((splitRN text).foldl (wrapParagraph f sz w) []) := by
  simp only [wrapTextToWidth, List.isEmpty_iff, htext, if_false,
    if_neg (not_le.mpr hw)]

theorem wrapTrimmed_ne_nil (text : Str) (f : Font) (sz w : ℚ) (hw : 0 < w)
    (htext : (trim text).isEmpty = false) :
    stripTrailingEmptyLines (wrapTextToWidth text (some f) sz (some w)) ≠ [] := by
  have htne : trim text ≠ [] := by simpa [List.isEmpty_iff] using htext
  rcases exists_nonWs_of_trim_ne_nil htne with ⟨c, hc, hcw⟩
  have htextne : text ≠ [] := by
    intro h0
    rw [h0] at hc
    cases hc
  rcases splitRN_covers text c hc with hn | hr | ⟨p, hp, hcp⟩
  · rw [hn] at hcw
    cases hcw
  · rw [hr] at hcw
    cases hcw
  have hpnb : (trim p).isEmpty = false := by
    rw [Bool.eq_false_iff]
    intro habs
    rw [List.isEmpty_iff] at habs
    have := trim_eq_nil_iff.mp habs c hcp
    rw [this] at hcw
    cases hcw
  rcases List.append_of_mem hp with ⟨pre, post, hsplit⟩
  rcases wrapParagraph_nonblank f sz w hw (pre.foldl (wrapParagraph f sz w) []) p hpnb
    with ⟨L, hL, hLnb⟩
  rcases foldl_para_prefix f sz w post
    (wrapParagraph f sz w (pre.foldl (wrapParagraph f sz w) []) p) with ⟨ext, hext⟩
  have hLfold : L ∈ (splitRN text).foldl (wrapParagraph f sz w) [] := by
    rw [hsplit, List.foldl_append, List.foldl_cons, hext]
    exact List.mem_append.mpr (Or.inl hL)
  have hLwrap : L ∈ wrapTextToWidth text (some f) sz (some w) := by
    rw [wrapTextToWidth_main text f sz w htextne hw]
    exact mem_stripTrailing_of_nonblank hLfold hLnb
  intro habs
  rw [stripTrailing_eq_nil_iff] at habs
  rw [habs L hLwrap] at hLnb
  cases hLnb

theorem overflow_iff_core (wrapped : List Str) (k : ℕ) :
    trim (joinNL (stripLeadingEmptyLines ((stripTrailingEmptyLines wrapped).drop k))) = []
      ↔ ((stripTrailingEmptyLines wrapped).take k).length =
          (stripTrailingEmptyLines wrapped).length := by
  by_cases hk : (stripTrailingEmptyLines wrapped).length ≤ k
  · have hdrop : (stripTrailingEmptyLines wrapped).drop k = [] :=
      List.drop_eq_nil_iff.mpr hk
    rw [hdrop]
    constructor
    · intro _
      rw [List.length_take]
      omega
    · intro _
      rfl
  · have hdropne : (stripTrailingEmptyLines wrapped).drop k ≠ [] := by
      rw [Ne, List.drop_eq_nil_iff]
      omega
    rcases stripTrailing_drop_nonblank (l := wrapped) (k := k) hdropne with ⟨x, hx, hxnb⟩
    constructor
    · intro habs
      exfalso
      have hx2 : x ∈ stripLeadingEmptyLines ((stripTrailingEmptyLines wrapped).drop k) :=
        mem_stripLeading_of_nonblank hx hxnb
      have hjoin := trim_joinNL_ne_nil hx2 hxnb
      rw [habs] at hjoin
      cases hjoin
    · intro hlen
      rw [List.length_take] at hlen
      omega

theorem buildFieldLayout_counts (text : Str) (f : Font) (multiline : Bool)
    (lhm width height s : ℚ)
    (hnb : multiline = true ∨
      stripTrailingEmptyLines (wrapTextToWidth text (some f) s (some width)) ≠ []) :
    (buildFieldLayout text f multiline lhm width height s).displayedLines ≤
        (buildFieldLayout text f multiline lhm width height s).totalLines ∧
      ((buildFieldLayout text f multiline lhm width height s).overflowText = [] ↔
        (buildFieldLayout text f multiline lhm width height s).displayedLines =
          (buildFieldLayout text f multiline lhm width height s).totalLines) := by
  by_cases hm : multiline = true
  · simp only [buildFieldLayout, if_pos hm]
    constructor
    · simp only [List.length_take]
      omega
    · exact overflow_iff_core (wrapTextToWidth text (some f) s (some width)) _
  · rcases hnb with hnb | hnb
    · exact absurd hnb hm
    simp only [buildFieldLayout, if_neg hm]
    have hlen1 : 1 ≤ (stripTrailingEmptyLines
        (wrapTextToWidth text (some f) s (some width))).length :=
      List.length_pos.mpr hnb
    constructor
    · simpa using hlen1
    · have hcore := overflow_iff_core (wrapTextToWidth text (some f) s (some width)) 1
      rw [List.length_take] at hcore
      constructor
      · intro h
        have := hcore.mp h
        omega
      · intro h
        apply hcore.mpr
        omega

/-! ### C4: displayed/total line-count invariant -/

/-- C4 (amended): with a font and widget present, `layoutTextForField`
satisfies `displayedLines <= totalLines`, and `overflowText` is empty iff
`displayedLines = totalLines` — except in the degenerate case of a
single-line policy with blank (empty or whitespace-only) text, where the
source hard-codes `displayedLines = 1` against `totalLines = 0`.  The
hypothesis excludes exactly that case. -/
theorem layoutTextForField_counts (o : FieldLayoutOptions) (f : Font) (wd : Widget)
    (hf : o.font = some f) (hw : o.widget = some wd)
    (hnb : o.multiline = true ∨ (trim o.value).isEmpty = false) :
    (layoutTextForField o).displayedLines ≤ (layoutTextForField o).totalLines ∧
      ((layoutTextForField o).overflowText = [] ↔
        (layoutTextForField o).displayedLines = (layoutTextForField o).totalLines) := by
  obtain ⟨hb, _, _, _⟩ := layoutTextForField_spec o f wd hf hw
  rw [hb]
  apply buildFieldLayout_counts
  rcases hnb with hm | hnb
  · exact Or.inl hm
  · right
    apply wrapTrimmed_ne_nil
    · have h1 : (1 : ℚ) ≤ max (wd.x2 - wd.x1 - TEXT_FIELD_INNER_PADDING * 2) 1 :=
        le_max_right _ _
      linarith
    · exact hnb

/-- Witness for C4 (amended) at a concrete multiline call. -/
theorem layoutTextForField_counts_witness :
    (witnessOpts.font = some unitFont ∧ witnessOpts.widget = some ⟨0, 0, 104, 40⟩ ∧
        (witnessOpts.multiline = true ∨ (trim witnessOpts.value).isEmpty = false)) ∧
      ((layoutTextForField witnessOpts).displayedLines ≤
          (layoutTextForField witnessOpts).totalLines ∧
        ((layoutTextForField witnessOpts).overflowText = [] ↔
          (layoutTextForField witnessOpts).displayedLines =
            (layoutTextForField witnessOpts).totalLines)) :=
  ⟨⟨rfl, rfl, Or.inl rfl⟩,
    layoutTextForField_counts witnessOpts unitFont ⟨0, 0, 104, 40⟩ rfl rfl (Or.inl rfl)⟩

theorem layoutTextForField_noShrink (o : FieldLayoutOptions) (f : Font) (wd : Widget)
    (hf : o.font = some f) (hw : o.widget = some wd)
    (hov : (buildFieldLayout o.value f o.multiline o.lineHeightMultiplier
        (max (wd.x2 - wd.x1 - TEXT_FIELD_INNER_PADDING * 2) 1)
        (max (wd.y2 - wd.y1 - TEXT_FIELD_INNER_PADDING * 2) o.fontSize)
        o.fontSize).overflowDetected = false) :
    layoutTextForField o =
      buildFieldLayout o.value f o.multiline o.lineHeightMultiplier
        (max (wd.x2 - wd.x1 - TEXT_FIELD_INNER_PADDING * 2) 1)
        (max (wd.y2 - wd.y1 - TEXT_FIELD_INNER_PADDING * 2) o.fontSize) o.fontSize := by
  obtain ⟨hb, -⟩ := layoutTextForField_build o f wd hf hw
  rw [shrinkGo_stop] at hb
  · exact hb
  · rintro ⟨h1, -⟩
    rw [hov] at h1
    cases h1

/-- The single-line blank-text inputs on which the C4 invariant fails. -/
def c4Opts : FieldLayoutOptions :=
  { value := [], font := some unitFont, fontSize := 10, multiline := false
    lineHeightMultiplier := 6/5, widget := some ⟨0, 0, 104, 40⟩, minFontSize := 7 }

/-- Counterexample to C4 as stated: a single-line field (multiline false) with
empty text and a font and widget present yields `displayedLines = 1` but
`totalLines = 0` (the single-line branch of `buildLayout` hard-codes
`displayedLines: 1`), so `displayedLines <= totalLines` fails while
`overflowText` is empty. -/
theorem layoutTextForField_counts_cex :
    c4Opts.multiline = false ∧ c4Opts.value = [] ∧
      (layoutTextForField c4Opts).displayedLines = 1 ∧
      (layoutTextForField c4Opts).totalLines = 0 ∧
      (layoutTextForField c4Opts).overflowText = [] ∧
      ¬((layoutTextForField c4Opts).displayedLines ≤
        (layoutTextForField c4Opts).totalLines) := by
  have h := layoutTextForField_noShrink c4Opts unitFont ⟨0, 0, 104, 40⟩ rfl rfl
    (by with_unfolding_all rfl)
  have hd : (layoutTextForField c4Opts).displayedLines = 1 := by
    rw [h]
    with_unfolding_all rfl
  have ht : (layoutTextForField c4Opts).totalLines = 0 := by
    rw [h]
    with_unfolding_all rfl
  have ho : (layoutTextForField c4Opts).overflowText = [] := by
    rw [h]
    with_unfolding_all rfl
  refine ⟨rfl, rfl, hd, ht, ho, ?_⟩
  rw [hd, ht]
  omega

theorem split_conservation (wrapped : List Str) (k : ℕ) :
    ∃ b1 b2,
      wrapped =
        (stripTrailingEmptyLines wrapped).take k ++ b1 ++
          stripLeadingEmptyLines ((stripTrailingEmptyLines wrapped).drop k) ++ b2 ∧
      (∀ l ∈ b1, (trim l).isEmpty = true) ∧ (∀ l ∈ b2, (trim l).isEmpty = true) := by
  rcases stripTrailing_decomp wrapped with ⟨rest, hdec, hrest⟩
  refine ⟨((stripTrailingEmptyLines wrapped).drop k).takeWhile (fun s => (trim s).isEmpty),
    rest, ?_, ?_, hrest⟩
  · have hmid : stripTrailingEmptyLines wrapped =
        (stripTrailingEmptyLines wrapped).take k ++
          ((stripTrailingEmptyLines wrapped).drop k).takeWhile
              (fun s => (trim s).isEmpty) ++
            stripLeadingEmptyLines ((stripTrailingEmptyLines wrapped).drop k) := by
      conv_lhs => rw [← List.take_append_drop k (stripTrailingEmptyLines wrapped)]
      conv_lhs => rw [stripLeading_decomp ((stripTrailingEmptyLines wrapped).drop k)]
      rw [List.append_assoc]
    conv_lhs => rw [hdec, hmid]
  · intro l hl
    have := List.mem_takeWhile_imp hl
    simpa using this

theorem buildFieldLayout_conservation (text : Str) (f : Font) (multiline : Bool)
    (lhm width height s : ℚ) :
    ∃ b1 b2,
      wrapTextToWidth text (some f) s (some width) =
        (buildFieldLayout text f multiline lhm width height s).fieldLines ++ b1 ++
          (buildFieldLayout text f multiline lhm width height s).overflowLines ++ b2 ∧
      (∀ l ∈ b1, (trim l).isEmpty = true) ∧
      (∀ l ∈ b2, (trim l).isEmpty = true) ∧
      (buildFieldLayout text f multiline lhm width height s).fieldText =
        joinNL (buildFieldLayout text f multiline lhm width height s).fieldLines ∧
      (buildFieldLayout text f multiline lhm width height s).overflowText =
        trim (joinNL (buildFieldLayout text f multiline lhm width height s).overflowLines) := by
  by_cases hm : multiline = true
  · simp only [buildFieldLayout, if_pos hm]
    rcases split_conservation (wrapTextToWidth text (some f) s (some width))
      (max 1 ⌊height / max (s * (if lhm = 0 then 6/5 else lhm)) 1⌋).toNat
      with ⟨b1, b2, heq, hb1, hb2⟩
    exact ⟨b1, b2, heq, hb1, hb2, trivial, trivial⟩
  · simp only [buildFieldLayout, if_neg hm]
    rcases split_conservation (wrapTextToWidth text (some f) s (some width)) 1
      with ⟨b1, b2, heq, hb1, hb2⟩
    exact ⟨b1, b2, heq, hb1, hb2, trivial, trivial⟩

/-! ### C6: conservation across the field/overflow split -/

/-- C6 (amended): with a font and widget present, the wrapped-line sequence of
the original text at the applied font size equals `fieldLines`, then some
blank (whitespace-only) lines, then `overflowLines`, then some more blank
lines; `fieldText` joins `fieldLines` with newlines and `overflowText` is the
*trim* of the newline-join of `overflowLines`.  Conservation therefore holds
only up to blank lines: `stripTrailingEmptyLines`, `stripLeadingEmptyLines`
and the final `trim` drop blank lines at the split boundary and at the end,
so the concatenation does not in general reconstruct the wrapped sequence
exactly. -/
theorem layoutTextForField_conservation (o : FieldLayoutOptions) (f : Font) (wd : Widget)
    (hf : o.font = some f) (hw : o.widget = some wd) :
    ∃ b1 b2,
      wrapTextToWidth o.value (some f) (layoutTextForField o).appliedFontSize
          (some (max (wd.x2 - wd.x1 - TEXT_FIELD_INNER_PADDING * 2) 1)) =
        (layoutTextForField o).fieldLines ++ b1 ++
          (layoutTextForField o).overflowLines ++ b2 ∧
      (∀ l ∈ b1, (trim l).isEmpty = true) ∧
      (∀ l ∈ b2, (trim l).isEmpty = true) ∧
      (layoutTextForField o).fieldText = joinNL (layoutTextForField o).fieldLines ∧
      (layoutTextForField o).overflowText =
        trim (joinNL (layoutTextForField o).overflowLines) := by
  obtain ⟨hb, -, -, -⟩ := layoutTextForField_spec o f wd hf hw
  rw [hb]
  simp only [buildFieldLayout_applied]
  exact buildFieldLayout_conservation o.value f o.multiline o.lineHeightMultiplier
    (max (wd.x2 - wd.x1 - TEXT_FIELD_INNER_PADDING * 2) 1)
    (max (wd.y2 - wd.y1 - TEXT_FIELD_INNER_PADDING * 2) o.fontSize)
    (layoutTextForField o).appliedFontSize

/-- Witness for C6 (amended) at a concrete call. -/
theorem layoutTextForField_conservation_witness :
    witnessOpts.font = some unitFont ∧ witnessOpts.widget = some ⟨0, 0, 104, 40⟩ ∧
      (∃ b1 b2,
        wrapTextToWidth witnessOpts.value (some unitFont)
            (layoutTextForField witnessOpts).appliedFontSize
            (some (max ((104 : ℚ) - 0 - TEXT_FIELD_INNER_PADDING * 2) 1)) =
          (layoutTextForField witnessOpts).fieldLines ++ b1 ++
            (layoutTextForField witnessOpts).overflowLines ++ b2 ∧
        (∀ l ∈ b1, (trim l).isEmpty = true) ∧
        (∀ l ∈ b2, (trim l).isEmpty = true) ∧
        (layoutTextForField witnessOpts).fieldText =
          joinNL (layoutTextForField witnessOpts).fieldLines ∧
        (layoutTextForField witnessOpts).overflowText =
          trim (joinNL (layoutTextForField witnessOpts).overflowLines)) :=
  ⟨rfl, rfl, layoutTextForField_conservation witnessOpts unitFont ⟨0, 0, 104, 40⟩ rfl rfl⟩

theorem layoutTextForField_atFloor (o : FieldLayoutOptions) (f : Font) (wd : Widget)
    (hf : o.font = some f) (hw : o.widget = some wd) (hm : o.fontSize ≤ o.minFontSize) :
    layoutTextForField o =
      buildFieldLayout o.value f o.multiline o.lineHeightMultiplier
        (max (wd.x2 - wd.x1 - TEXT_FIELD_INNER_PADDING * 2) 1)
        (max (wd.y2 - wd.y1 - TEXT_FIELD_INNER_PADDING * 2) o.fontSize) o.fontSize := by
  obtain ⟨hb, -⟩ := layoutTextForField_build o f wd hf hw
  rw [shrinkGo_stop] at hb
  · exact hb
  · rintro ⟨-, h2⟩
    exact absurd h2 (not_lt.mpr hm)

/-- Inputs on which the exact-reconstruction reading of C6 fails: an interior
blank line sits exactly at the field/overflow boundary. -/
def c6Opts : FieldLayoutOptions :=
  { value := ['a', '\n', '\n', 'b'], font := some unitFont, fontSize := 10
    multiline := true, lineHeightMultiplier := 6/5, widget := some ⟨0, 0, 104, 20⟩
    minFontSize := 10 }

/-- Counterexample to C6 as stated: for the text "a\n\nb" in a one-line-tall
multiline field, the wrapped sequence at the applied size is ["a", "", "b"],
but fieldText is "a" and overflowText is "b" — splitting them back into lines
and concatenating gives ["a", "b"]: the blank line at the split boundary is
lost, so the reconstruction is not exact. -/
theorem layoutTextForField_conservation_cex :
    splitRN (layoutTextForField c6Opts).fieldText ++
        splitRN (layoutTextForField c6Opts).overflowText = [['a'], ['b']] ∧
      wrapTextToWidth c6Opts.value (some unitFont)
          (layoutTextForField c6Opts).appliedFontSize (some 100) =
        [['a'], [], ['b']] ∧
      splitRN (layoutTextForField c6Opts).fieldText ++
          splitRN (layoutTextForField c6Opts).overflowText ≠
        wrapTextToWidth c6Opts.value (some unitFont)
          (layoutTextForField c6Opts).appliedFontSize (some 100) := by
  have h := layoutTextForField_atFloor c6Opts unitFont ⟨0, 0, 104, 20⟩ rfl rfl le_rfl
  have h1 : splitRN (layoutTextForField c6Opts).fieldText ++
      splitRN (layoutTextForField c6Opts).overflowText = [['a'], ['b']] := by
    rw [h]
    with_unfolding_all rfl
  have h2 : wrapTextToWidth c6Opts.value (some unitFont)
      (layoutTextForField c6Opts).appliedFontSize (some 100) = [['a'], [], ['b']] := by
    rw [h]
    with_unfolding_all rfl
  refine ⟨h1, h2, ?_⟩
  rw [h1, h2]
  intro habs
  simpa using congrArg List.length habs

theorem splitLongWord_of_fits (f : Font) (sz w : ℚ) {word : Str} (hne : word ≠ [])
    (hw : 0 < w) (hfits : f.widthOfTextAtSize word sz ≤ w) :
    splitLongWord word (some f) sz (some w) = [word] := by
  simp only [splitLongWord, List.isEmpty_iff, hne, if_false, if_neg (not_le.mpr hw),
    if_pos hfits]

theorem splitLongWord_singleton (f : Font) (sz w : ℚ) (hw : 0 < w) (c : Char) :
    splitLongWord [c] (some f) sz (some w) = [[c]] := by
  by_cases hfits : f.widthOfTextAtSize [c] sz ≤ w
  · exact splitLongWord_of_fits f sz w (by simp) hw hfits
  · have h1 : ¬w ≤ 0 := not_le.mpr hw
    simp [splitLongWord, splitLongWordStep, h1, hfits]

theorem splitWsGo_nonws_chunk :
    ∀ (t : Str), NoWsStr t → ∀ (rest : Str) (acc : List Str) (cur : Str),
      splitWsGo (t ++ rest) (acc, cur) = splitWsGo rest (acc, cur ++ t) := by
  intro t
  induction t with
  | nil =>
    intro _ rest acc cur
    simp
  | cons c t ih =>
    intro hnw rest acc cur
    have hc : isWs c = false := hnw c (by simp)
    rw [List.cons_append]
    show splitWsGo (c :: (t ++ rest)) (acc, cur) = _
    rw [splitWsGo, if_neg (by simp [hc])]
    rw [ih (fun x hx => hnw x (by simp [hx])) rest acc (cur ++ [c])]
    simp

theorem splitWsGo_unwords :
    ∀ (toks : List Str), toks ≠ [] → (∀ t ∈ toks, t ≠ [] ∧ NoWsStr t) →
      ∀ acc, splitWsGo (unwords toks) (acc, []) = acc ++ toks := by
  intro toks
  induction toks with
  | nil => intro h; exact absurd rfl h
  | cons t rest ih =>
    intro _ hgood acc
    obtain ⟨htne, htnw⟩ := hgood t (by simp)
    cases rest with
    | nil =>
      show splitWsGo t (acc, []) = acc ++ [t]
      rw [← List.append_nil t, splitWsGo_nonws_chunk t htnw [] acc []]
      rw [splitWsGo, if_neg (by simpa [List.isEmpty_iff] using htne)]
      simp
    | cons q l =>
      rw [unwords_cons t (by simp)]
      rw [show t ++ ' ' :: unwords (q :: l) = t ++ (' ' :: unwords (q :: l)) from rfl]
      rw [splitWsGo_nonws_chunk t htnw _ acc []]
      simp only [List.nil_append]
      rw [splitWsGo]
      rw [if_pos (show isWs ' ' = true from rfl),
        if_neg (by simpa [List.isEmpty_iff] using htne)]
      rw [ih (by simp) (fun x hx => hgood x (by simp [hx])) (acc ++ [t])]
      simp

theorem splitWs_unwords {toks : List Str} (h : GoodTokens toks) :
    splitWs (unwords toks) = toks := by
  unfold splitWs
  rw [splitWsGo_unwords toks h.1 h.2 []]
  rfl

theorem mem_unwords {c : Char} :
    ∀ {toks : List Str}, c ∈ unwords toks → c = ' ' ∨ ∃ t ∈ toks, c ∈ t := by
  intro toks
  induction toks with
  | nil => intro h; cases h
  | cons t rest ih =>
    intro hc
    cases rest with
    | nil => exact Or.inr ⟨t, by simp, hc⟩
    | cons q l =>
      rw [unwords_cons t (by simp)] at hc
      rcases List.mem_append.mp hc with h | h
      · exact Or.inr ⟨t, by simp, h⟩
      · rcases List.mem_cons.mp h with h | h
        · exact Or.inl h
        · rcases ih h with h | ⟨u, hu, hcu⟩
          · exact Or.inl h
          · exact Or.inr ⟨u, by simp [hu], hcu⟩

theorem unwords_append {a b : List Str} (ha : a ≠ []) (hb : b ≠ []) :
    unwords (a ++ b) = unwords a ++ ' ' :: unwords b := by
  induction a with
  | nil => exact absurd rfl ha
  | cons x a ih =>
    cases a with
    | nil => simpa using unwords_cons x hb
    | cons y l =>
      rw [List.cons_append, unwords_cons x (by simp), unwords_cons x (by simp),
        ih (by simp)]
      simp

theorem width_unwords_prefix (f : Font) (sz w : ℚ) (hs : 0 ≤ sz) (pre suf : List Str)
    (hpre : pre ≠ [])
    (hfit : f.widthOfTextAtSize (unwords (pre ++ suf)) sz ≤ w) :
    f.widthOfTextAtSize (unwords pre) sz ≤ w := by
  cases suf with
  | nil => simpa using hfit
  | cons q l =>
    rw [unwords_append hpre (by simp), width_append] at hfit
    have := width_nonneg f (' ' :: unwords (q :: l)) sz hs
    linarith

theorem wrapAddWord_goodStep (f : Font) (sz w : ℚ) (hs : 0 ≤ sz) (hw : 0 < w)
    (lines : List Str) (toks pre suf : List Str) (t : Str)
    (htoks : GoodTokens toks) (htk : toks = pre ++ t :: suf) (hpre : pre ≠ [])
    (hfit : f.widthOfTextAtSize (unwords toks) sz ≤ w) :
    wrapAddWord f sz w (lines, unwords pre) t = (lines, unwords (pre ++ [t])) := by
  have htmem : t ∈ toks := by rw [htk]; simp
  obtain ⟨htne, htnw⟩ := htoks.2 t htmem
  have htw : f.widthOfTextAtSize t sz ≤ w := width_token_le f sz w hs htmem hfit
  have hpregood : GoodTokens pre :=
    ⟨hpre, fun x hx => htoks.2 x (by rw [htk]; exact List.mem_append.mpr (Or.inl hx))⟩
  have hcur : unwords pre ≠ [] := unwords_ne_nil hpregood
  have hcand : unwords pre ++ [' '] ++ t = unwords (pre ++ [t]) := by
    rw [unwords_append_single t hpre]
    simp
  have hcandfit : f.widthOfTextAtSize (unwords (pre ++ [t])) sz ≤ w := by
    apply width_unwords_prefix f sz w hs (pre ++ [t]) suf (by simp)
    rw [List.append_assoc]
    exact htk ▸ hfit
  rw [wrapAddWord, if_neg (by simpa [List.isEmpty_iff] using htne),
    splitLongWord_of_fits f sz w htne hw htw]
  simp only [List.foldl_nil]
  rw [wrapAddSegment, if_neg (by simpa [List.isEmpty_iff] using hcur)]
  simp only [if_pos trivial]
  rw [hcand, if_pos hcandfit]

theorem foldWords_good (f : Font) (sz w : ℚ) (hs : 0 ≤ sz) (hw : 0 < w)
    (lines : List Str) (toks : List Str) (htoks : GoodTokens toks)
    (hfit : f.widthOfTextAtSize (unwords toks) sz ≤ w) :
    ∀ (suf pre : List Str), toks = pre ++ suf → pre ≠ [] →
      suf.foldl (wrapAddWord f sz w) (lines, unwords pre) = (lines, unwords toks) := by
  intro suf
  induction suf with
  | nil =>
    intro pre htk _
    rw [List.foldl_nil, htk]
    simp
  | cons t suf ih =>
    intro pre htk hpre
    rw [List.foldl_cons,
      wrapAddWord_goodStep f sz w hs hw lines toks pre suf t htoks htk hpre hfit]
    exact ih (pre ++ [t]) (by rw [htk, List.append_assoc]; rfl) (by simp)

theorem wrapParagraph_goodLine (f : Font) (sz w : ℚ) (hs : 0 ≤ sz) (hw : 0 < w)
    (lines : List Str) (p : Str) (hp : GoodLine f sz w p) :
    wrapParagraph f sz w lines p = lines ++ [p] := by
  rcases hp with hnil | ⟨toks, htoks, hunw, hwd⟩
  · subst hnil
    rfl
  · subst hunw
    have hne := unwords_ne_nil htoks
    have htr : trim (unwords toks) = unwords toks :=
      goodLine_trim f sz w (Or.inr ⟨toks, htoks, rfl, hwd⟩)
    have hblank : (trim (unwords toks)).isEmpty = false := by
      rw [htr]
      simpa [List.isEmpty_iff] using hne
    rw [wrapParagraph, if_neg (by simp [hblank]), htr, splitWs_unwords htoks]
    dsimp only
    obtain ⟨t0, rest, rfl⟩ : ∃ t0 rest, toks = t0 :: rest := by
      cases toks with
      | nil => exact absurd rfl htoks.1
      | cons a b => exact ⟨a, b, rfl⟩
    obtain ⟨h0ne, h0nw⟩ := htoks.2 t0 (by simp)
    rcases hwd with hfit | ⟨c, hc⟩
    · have h0 : wrapAddWord f sz w (lines, []) t0 = (lines, unwords [t0]) := by
        have h0w : f.widthOfTextAtSize t0 sz ≤ w :=
          width_token_le f sz w hs (by simp) hfit
        rw [wrapAddWord, if_neg (by simpa [List.isEmpty_iff] using h0ne),
          splitLongWord_of_fits f sz w h0ne hw h0w]
        simp only [List.foldl_nil]
        simp [wrapAddSegment, unwords]
      rw [List.foldl_cons, h0,
        foldWords_good f sz w hs hw lines (t0 :: rest) htoks hfit rest [t0] rfl (by simp)]
      rw [if_neg (by simpa [List.isEmpty_iff] using hne)]
    · have hrest : rest = [] := by
        cases rest with
        | nil => rfl
        | cons q l =>
          exfalso
          rw [unwords_cons t0 (by simp)] at hc
          have hlen := congrArg List.length hc
          simp at hlen
          have : 1 ≤ t0.length := List.length_pos.mpr h0ne
          omega
      subst hrest
      have h0 : wrapAddWord f sz w (lines, []) t0 = (lines, t0) := by
        obtain ⟨c, rfl⟩ : ∃ c0, t0 = [c0] := ⟨c, hc⟩
        rw [wrapAddWord, if_neg (by simp), splitLongWord_singleton f sz w hw c]
        simp only [List.foldl_nil]
        simp [wrapAddSegment]
      rw [List.foldl_cons, List.foldl_nil, h0]
      rw [if_neg (by simpa [List.isEmpty_iff] using h0ne)]
      rfl

theorem splitRN_no_newline {l : Str} (h : ∀ c ∈ l, c ≠ '\n' ∧ c ≠ '\r') :
    splitRN l = [l] := by
  induction l with
  | nil => rfl
  | cons c rest ih =>
    have hc := h c (by simp)
    exact splitRN_cons_default c rest rest []
      (fun r1 hcr _ => hc.2 hcr) (fun hn => hc.1 hn)
      (ih (fun x hx => h x (by simp [hx])))

theorem splitRN_append_newline (l : Str) (h : ∀ c ∈ l, c ≠ '\n' ∧ c ≠ '\r')
    (rest : Str) : splitRN (l ++ '\n' :: rest) = l :: splitRN rest := by
  induction l with
  | nil =>
    show splitRN ('\n' :: rest) = [] :: splitRN rest
    rfl
  | cons c l ih =>
    have hc := h c (by simp)
    exact splitRN_cons_default c (l ++ '\n' :: rest) l (splitRN rest)
      (fun r1 hcr _ => hc.2 hcr) (fun hn => hc.1 hn)
      (ih (fun x hx => h x (by simp [hx])))

theorem splitRN_joinNL :
    ∀ (ls : List Str), ls ≠ [] →
      (∀ l ∈ ls, ∀ c ∈ l, c ≠ '\n' ∧ c ≠ '\r') → splitRN (joinNL ls) = ls := by
  intro ls
  induction ls with
  | nil => intro h; exact absurd rfl h
  | cons l rest ih =>
    intro _ hchars
    cases rest with
    | nil => exact splitRN_no_newline (hchars l (by simp))
    | cons l2 rest2 =>
      show splitRN (l ++ '\n' :: joinNL (l2 :: rest2)) = l :: l2 :: rest2
      rw [splitRN_append_newline l (hchars l (by simp)) _]
      rw [ih (by simp) (fun x hx => hchars x (by simp [hx]))]

theorem goodLine_no_newline (f : Font) (sz w : ℚ) {L : Str} (hL : GoodLine f sz w L) :
    ∀ c ∈ L, c ≠ '\n' ∧ c ≠ '\r' := by
  rcases hL with hnil | ⟨toks, htoks, hunw, -⟩
  · subst hnil
    intro c hc
    cases hc
  · subst hunw
    intro c hc
    rcases mem_unwords hc with hsp | ⟨t, ht, hct⟩
    · subst hsp
      exact ⟨by decide, by decide⟩
    · have hnw := (htoks.2 t ht).2 c hct
      constructor
      · rintro rfl
        exact absurd hnw (by decide)
      · rintro rfl
        exact absurd hnw (by decide)

theorem wrapTextToWidth_joinNL (f : Font) (sz w : ℚ) (hs : 0 ≤ sz) (hw : 0 < w)
    (ls : List Str) (hne : ls ≠ []) (hgood : ∀ L ∈ ls, GoodLine f sz w L)
    (hjoin : joinNL ls ≠ []) :
    wrapTextToWidth (joinNL ls) (some f) sz (some w) = stripTrailingEmptyLines ls := by
  rw [wrapTextToWidth_main _ f sz w hjoin hw]
  rw [splitRN_joinNL ls hne (fun l hl => goodLine_no_newline f sz w (hgood l hl))]
  congr 1
  have hfold : ∀ (ps : List Str), (∀ p ∈ ps, GoodLine f sz w p) →
      ∀ acc, ps.foldl (wrapParagraph f sz w) acc = acc ++ ps := by
    intro ps
    induction ps with
    | nil =>
      intro _ acc
      simp
    | cons p ps ih =>
      intro hg acc
      rw [List.foldl_cons, wrapParagraph_goodLine f sz w hs hw acc p (hg p (by simp)),
        ih (fun x hx => hg x (by simp [hx])) (acc ++ [p])]
      simp
  rw [hfold ls hgood []]
  rfl

theorem stripTrailing_length_le (l : List Str) :
    (stripTrailingEmptyLines l).length ≤ l.length := by
  rcases stripTrailing_decomp l with ⟨rest, hdec, -⟩
  conv_rhs => rw [hdec]
  simp

theorem stripTrailing_idem (l : List Str) :
    stripTrailingEmptyLines (stripTrailingEmptyLines l) = stripTrailingEmptyLines l := by
  by_cases h : stripTrailingEmptyLines l = []
  · rw [h]
    rfl
  · have hlast := stripTrailing_getLast (l := l) h
    conv_lhs => rw [stripTrailingEmptyLines]
    rcases hx : (stripTrailingEmptyLines l).reverse with _ | ⟨a, as⟩
    · exact absurd (by simpa using hx) h
    · have h1 : (stripTrailingEmptyLines l).getLast? = some a := by
        rw [← List.head?_reverse, hx]
        rfl
      have h2 := List.getLast?_eq_getLast (stripTrailingEmptyLines l) h
      rw [h1, Option.some_inj] at h2
      have ha : (trim a).isEmpty = false := by
        rw [h2]
        exact hlast
      rw [List.dropWhile_cons, if_neg (by simp [ha])]
      rw [← hx, List.reverse_reverse]

/-- The per-branch line budget of `buildLayout`: `maxLines` when multiline,
otherwise the hard-coded single line. -/
def fieldLineBudget (multiline : Bool) (lhm height s : ℚ) : ℕ :=
  if multiline = true then
    (max 1 ⌊height / max (s * (if lhm = 0 then 6/5 else lhm)) 1⌋).toNat
  else 1

theorem buildFieldLayout_fieldLines (text : Str) (f : Font) (multiline : Bool)
    (lhm width height s : ℚ) :
    (buildFieldLayout text f multiline lhm width height s).fieldLines =
        (stripTrailingEmptyLines (wrapTextToWidth text (some f) s (some width))).take
          (fieldLineBudget multiline lhm height s) ∧
      (buildFieldLayout text f multiline lhm width height s).fieldText =
        joinNL (buildFieldLayout text f multiline lhm width height s).fieldLines := by
  by_cases hm : multiline = true
  · simp only [buildFieldLayout, fieldLineBudget, if_pos hm]
    exact ⟨trivial, trivial⟩
  · simp only [buildFieldLayout, fieldLineBudget, if_neg hm]
    exact ⟨trivial, trivial⟩

theorem buildFieldLayout_no_overflow (text : Str) (f : Font) (multiline : Bool)
    (lhm width height s : ℚ)
    (hshort :
      (stripTrailingEmptyLines (wrapTextToWidth text (some f) s (some width))).length ≤
        fieldLineBudget multiline lhm height s) :
    (buildFieldLayout text f multiline lhm width height s).overflowDetected = false ∧
      (buildFieldLayout text f multiline lhm width height s).overflowText = [] := by
  by_cases hm : multiline = true
  · rw [fieldLineBudget, if_pos hm] at hshort
    have hdrop : (stripTrailingEmptyLines
        (wrapTextToWidth text (some f) s (some width))).drop
          (max 1 ⌊height / max (s * (if lhm = 0 then 6/5 else lhm)) 1⌋).toNat = [] :=
      List.drop_eq_nil_iff.mpr hshort
    simp only [buildFieldLayout, if_pos hm, hdrop]
    exact ⟨rfl, rfl⟩
  · rw [fieldLineBudget, if_neg hm] at hshort
    have hdrop : (stripTrailingEmptyLines
        (wrapTextToWidth text (some f) s (some width))).drop 1 = [] :=
      List.drop_eq_nil_iff.mpr hshort
    simp only [buildFieldLayout, if_neg hm, hdrop]
    exact ⟨rfl, rfl⟩

theorem buildFieldLayout_idem (text : Str) (f : Font) (multiline : Bool)
    (lhm width height s : ℚ) (hs : 0 ≤ s) (hw : 0 < width) :
    (buildFieldLayout (buildFieldLayout text f multiline lhm width height s).fieldText
        f multiline lhm width height s).overflowDetected = false ∧
      (buildFieldLayout (buildFieldLayout text f multiline lhm width height s).fieldText
        f multiline lhm width height s).overflowText = [] := by
  obtain ⟨hfl, hft⟩ := buildFieldLayout_fieldLines text f multiline lhm width height s
  apply buildFieldLayout_no_overflow
  rw [hft]
  by_cases hj : joinNL (buildFieldLayout text f multiline lhm width height s).fieldLines = []
  · rw [hj]
    have : wrapTextToWidth [] (some f) s (some width) = [[]] := rfl
    rw [this]
    have : stripTrailingEmptyLines [[]] = [] := rfl
    rw [this]
    exact Nat.zero_le _
  · have hgood : ∀ L ∈ (buildFieldLayout text f multiline lhm width height s).fieldLines,
        GoodLine f s width L := by
      intro L hL
      rw [hfl] at hL
      exact wrapTextToWidth_good text f s width hw L
        (mem_stripTrailing (List.mem_of_mem_take hL))
    have hne : (buildFieldLayout text f multiline lhm width height s).fieldLines ≠ [] := by
      intro h0
      rw [h0] at hj
      exact hj rfl
    rw [wrapTextToWidth_joinNL f s width hs hw _ hne hgood hj, stripTrailing_idem]
    calc (stripTrailingEmptyLines
          (buildFieldLayout text f multiline lhm width height s).fieldLines).length
        ≤ (buildFieldLayout text f multiline lhm width height s).fieldLines.length :=
          stripTrailing_length_le _
      _ ≤ fieldLineBudget multiline lhm height s := by
          rw [hfl, List.length_take]
          omega

/-- The rerun of C7: `layoutTextForField` on its own `fieldText`, with the
same widget and policy but `fontSize` set to the first run's
`appliedFontSize`. -/
def rerunOptions (o : FieldLayoutOptions) : FieldLayoutOptions :=
  { value := (layoutTextForField o).fieldText
    font := o.font
    fontSize := (layoutTextForField o).appliedFontSize
    multiline := o.multiline
    lineHeightMultiplier := o.lineHeightMultiplier
    widget := o.widget
    minFontSize := o.minFontSize }

/-! ### C7: idempotence of layout on its own output -/

/-- C7 (amended): re-running `layoutTextForField` on the returned `fieldText`
at the returned `appliedFontSize` yields no overflow, PROVIDED the requested
font size fits the widget's usable height (`fontSize <= y2 - y1 - 2*padding`,
with positive font-size policy).  Without that proviso the claim fails: the
line budget is computed from `height = max(y2 - y1 - 2*padding, fontSize)`,
which depends on the *passed* font size, so the rerun at the smaller applied
size can see a smaller height and re-overflow. -/
theorem layoutTextForField_idempotent (o : FieldLayoutOptions) (f : Font) (wd : Widget)
    (hf : o.font = some f) (hw : o.widget = some wd)
    (hfs : 0 < o.fontSize) (hms : 0 < o.minFontSize)
    (hfit : o.fontSize ≤ wd.y2 - wd.y1 - TEXT_FIELD_INNER_PADDING * 2) :
    (layoutTextForField (rerunOptions o)).overflowDetected = false ∧
      (layoutTextForField (rerunOptions o)).overflowText = [] := by
  obtain ⟨hb, hle, hfloor, -⟩ := layoutTextForField_spec o f wd hf hw
  have ha0 : 0 < (layoutTextForField o).appliedFontSize := by
    rcases hfloor with h | h
    · rw [h]
      exact hfs
    · exact lt_of_lt_of_le hms h
  have hH1 : max (wd.y2 - wd.y1 - TEXT_FIELD_INNER_PADDING * 2) o.fontSize =
      wd.y2 - wd.y1 - TEXT_FIELD_INNER_PADDING * 2 := max_eq_left hfit
  have hH2 : max (wd.y2 - wd.y1 - TEXT_FIELD_INNER_PADDING * 2)
        (layoutTextForField o).appliedFontSize =
      wd.y2 - wd.y1 - TEXT_FIELD_INNER_PADDING * 2 := max_eq_left (le_trans hle hfit)
  rw [hH1] at hb
  have hcore := buildFieldLayout_idem o.value f o.multiline o.lineHeightMultiplier
    (max (wd.x2 - wd.x1 - TEXT_FIELD_INNER_PADDING * 2) 1)
    (wd.y2 - wd.y1 - TEXT_FIELD_INNER_PADDING * 2)
    (layoutTextForField o).appliedFontSize (le_of_lt ha0)
    (lt_of_lt_of_le one_pos (le_max_right _ _))
  rw [← hb] at hcore
  have hov : (buildFieldLayout (rerunOptions o).value f (rerunOptions o).multiline
      (rerunOptions o).lineHeightMultiplier
      (max (wd.x2 - wd.x1 - TEXT_FIELD_INNER_PADDING * 2) 1)
      (max (wd.y2 - wd.y1 - TEXT_FIELD_INNER_PADDING * 2) (rerunOptions o).fontSize)
      (rerunOptions o).fontSize).overflowDetected = false := by
    show (buildFieldLayout (layoutTextForField o).fieldText f o.multiline
      o.lineHeightMultiplier
      (max (wd.x2 - wd.x1 - TEXT_FIELD_INNER_PADDING * 2) 1)
      (max (wd.y2 - wd.y1 - TEXT_FIELD_INNER_PADDING * 2)
        (layoutTextForField o).appliedFontSize)
      (layoutTextForField o).appliedFontSize).overflowDetected = false
    rw [hH2]
    exact hcore.1
  have hres := layoutTextForField_noShrink (rerunOptions o) f wd hf hw hov
  rw [hres]
  constructor
  · show (buildFieldLayout (layoutTextForField o).fieldText f o.multiline
      o.lineHeightMultiplier
      (max (wd.x2 - wd.x1 - TEXT_FIELD_INNER_PADDING * 2) 1)
      (max (wd.y2 - wd.y1 - TEXT_FIELD_INNER_PADDING * 2)
        (layoutTextForField o).appliedFontSize)
      (layoutTextForField o).appliedFontSize).overflowDetected = false
    rw [hH2]
    exact hcore.1
  · show (buildFieldLayout (layoutTextForField o).fieldText f o.multiline
      o.lineHeightMultiplier
      (max (wd.x2 - wd.x1 - TEXT_FIELD_INNER_PADDING * 2) 1)
      (max (wd.y2 - wd.y1 - TEXT_FIELD_INNER_PADDING * 2)
        (layoutTextForField o).appliedFontSize)
      (layoutTextForField o).appliedFontSize).overflowText = []
    rw [hH2]
    exact hcore.2

/-- Witness for C7 (amended) at a concrete call. -/
theorem layoutTextForField_idempotent_witness :
    (witnessOpts.font = some unitFont ∧ witnessOpts.widget = some ⟨0, 0, 104, 40⟩ ∧
        0 < witnessOpts.fontSize ∧ 0 < witnessOpts.minFontSize ∧
        witnessOpts.fontSize ≤ (40 : ℚ) - 0 - TEXT_FIELD_INNER_PADDING * 2) ∧
      ((layoutTextForField (rerunOptions witnessOpts)).overflowDetected = false ∧
        (layoutTextForField (rerunOptions witnessOpts)).overflowText = []) :=
  ⟨⟨rfl, rfl, by norm_num [witnessOpts], by norm_num [witnessOpts],
      by norm_num [witnessOpts, TEXT_FIELD_INNER_PADDING]⟩,
    layoutTextForField_idempotent witnessOpts unitFont ⟨0, 0, 104, 40⟩ rfl rfl
      (by norm_num [witnessOpts]) (by norm_num [witnessOpts])
      (by norm_num [witnessOpts, TEXT_FIELD_INNER_PADDING])⟩

/-- Inputs on which the unconditional reading of C7 fails: the requested font
size (5/2) exceeds the widget's usable height (11/10), so the first run's
height floor is the font size itself. -/
def c7Opts : FieldLayoutOptions :=
  { value := ['a', '\n', 'b'], font := some unitFont, fontSize := 5/2
    multiline := true, lineHeightMultiplier := 6/5, widget := some ⟨0, 0, 104, 51/10⟩
    minFontSize := 1 }

/-- The first run's `buildLayout` closure on the C7 counterexample inputs. -/
def c7Build : ℚ → FieldLayoutResult :=
  buildFieldLayout c7Opts.value unitFont c7Opts.multiline c7Opts.lineHeightMultiplier
    (max ((104 : ℚ) - 0 - TEXT_FIELD_INNER_PADDING * 2) 1)
    (max ((51 / 10 : ℚ) - 0 - TEXT_FIELD_INNER_PADDING * 2) c7Opts.fontSize)

/-- The rerun options of the C7 counterexample, spelled out. -/
def c7Rerun : FieldLayoutOptions :=
  { value := ['a', '\n', 'b'], font := some unitFont, fontSize := 1
    multiline := true, lineHeightMultiplier := 6/5, widget := some ⟨0, 0, 104, 51/10⟩
    minFontSize := 1 }

/-- Counterexample to C7 as stated: on `c7Opts` the first run shrinks
2.5 → 2 → 1.5 → 1, ends with no overflow and displays "a\nb" in full; the
rerun on that very `fieldText` at the applied size 1 overflows ("b" spills),
because the height floor `max(usableHeight, fontSize)` is now computed from
the smaller font size. -/
theorem layoutTextForField_idempotent_cex :
    (layoutTextForField c7Opts).overflowDetected = false ∧
      (layoutTextForField c7Opts).appliedFontSize = 1 ∧
      (layoutTextForField c7Opts).fieldText = ['a', '\n', 'b'] ∧
      (layoutTextForField (rerunOptions c7Opts)).overflowDetected = true ∧
      (layoutTextForField (rerunOptions c7Opts)).overflowText = ['b'] := by
  have hb : layoutTextForField c7Opts = (shrinkGo c7Build 1 (5/2) (c7Build (5/2))).2 := by
    obtain ⟨h, -⟩ := layoutTextForField_build c7Opts unitFont ⟨0, 0, 104, 51/10⟩ rfl rfl
    exact h
  have hov52 : (c7Build (5/2)).overflowDetected = true := by with_unfolding_all rfl
  have hov2 : (c7Build 2).overflowDetected = true := by with_unfolding_all rfl
  have hov32 : (c7Build (3/2)).overflowDetected = true := by with_unfolding_all rfl
  have hov1 : (c7Build 1).overflowDetected = false := by with_unfolding_all rfl
  have hmax2 : max (1 : ℚ) (5/2 - 1/2) = 2 := by
    rw [show (5/2 : ℚ) - 1/2 = 2 by norm_num]
    exact max_eq_right (by norm_num)
  have hmax32 : max (1 : ℚ) (2 - 1/2) = 3/2 := by
    rw [show (2 : ℚ) - 1/2 = 3/2 by norm_num]
    exact max_eq_right (by norm_num)
  have hmax1 : max (1 : ℚ) (3/2 - 1/2) = 1 := by
    rw [show (3/2 : ℚ) - 1/2 = 1 by norm_num]
    exact max_self 1
  have e3 : shrinkGo c7Build 1 (3/2) (c7Build (3/2)) = ([1], c7Build 1) := by
    have h2 : (c7Build (max (1 : ℚ) (3/2 - 1/2))).overflowDetected = false ∨
        max (1 : ℚ) (3/2 - 1/2) ≤ 1 := by
      rw [hmax1]
      exact Or.inl hov1
    rw [shrinkGo_break c7Build 1 (3/2) (c7Build (3/2)) ⟨hov32, by norm_num⟩ h2, hmax1]
  have e2 : shrinkGo c7Build 1 2 (c7Build 2) = ([3/2, 1], c7Build 1) := by
    have h2 : ¬((c7Build (max (1 : ℚ) (2 - 1/2))).overflowDetected = false ∨
        max (1 : ℚ) (2 - 1/2) ≤ 1) := by
      rw [hmax32]
      rintro (h | h)
      · rw [hov32] at h
        cases h
      · norm_num at h
    rw [shrinkGo_cont c7Build 1 2 (c7Build 2) ⟨hov2, by norm_num⟩ h2, hmax32, e3]
  have e1 : shrinkGo c7Build 1 (5/2) (c7Build (5/2)) = ([2, 3/2, 1], c7Build 1) := by
    have h2 : ¬((c7Build (max (1 : ℚ) (5/2 - 1/2))).overflowDetected = false ∨
        max (1 : ℚ) (5/2 - 1/2) ≤ 1) := by
      rw [hmax2]
      rintro (h | h)
      · rw [hov2] at h
        cases h
      · norm_num at h
    rw [shrinkGo_cont c7Build 1 (5/2) (c7Build (5/2)) ⟨hov52, by norm_num⟩ h2, hmax2, e2]
  have hL : layoutTextForField c7Opts = c7Build 1 := by
    rw [hb, e1]
  have hrr : rerunOptions c7Opts = c7Rerun := by
    unfold rerunOptions
    rw [hL]
    with_unfolding_all rfl
  have hA : (layoutTextForField c7Rerun).overflowDetected = true := by
    rw [layoutTextForField_atFloor c7Rerun unitFont ⟨0, 0, 104, 51/10⟩ rfl rfl le_rfl]
    with_unfolding_all rfl
  have hB : (layoutTextForField c7Rerun).overflowText = ['b'] := by
    rw [layoutTextForField_atFloor c7Rerun unitFont ⟨0, 0, 104, 51/10⟩ rfl rfl le_rfl]
    with_unfolding_all rfl
  refine ⟨?_, ?_, ?_, ?_, ?_⟩
  · rw [hL]
    exact hov1
  · rw [hL]
    with_unfolding_all rfl
  · rw [hL]
    with_unfolding_all rfl
  · rw [hrr]
    exact hA
  · rw [hrr]
    exact hB

theorem round_nonpos_of_nonpos {x : ℚ} (hx : x ≤ 0) : round x ≤ 0 := by
  rw [round_eq]
  have h1 : x + 1/2 < ((1 : ℤ) : ℚ) := by
    push_cast
    linarith
  have h2 := Int.floor_lt.mpr h1
  omega

theorem processEmployeeRecord_autocorrect (now : JsDate) (idx : ℕ) (rec : EmployeeRecord)
    (a d : JsDate)
    (hpa : parseLocalDateTime (normStr rec.arrival) = some a)
    (hpd : parseLocalDateTime (normStr rec.departure) = some d)
    (harrne : (normStr rec.arrival).isEmpty = false)
    (hdepne : (normStr rec.departure).isEmpty = false)
    (hle : d.getTime ≤ a.getTime) :
    processEmployeeRecord now idx rec = some
      { index := idx + 1
        name := normStr rec.name
        role := normStr rec.role
        arrival := formatIsoFromDate a
        departure := formatIsoFromDate ⟨a.getTime + 60 * 60000⟩
        arrivalDisplay := formatEmployeeDateTime (formatIsoFromDate a)
        departureDisplay :=
          formatEmployeeDateTime (formatIsoFromDate ⟨a.getTime + 60 * 60000⟩)
        durationMinutes := 60
        durationLabel := formatEmployeeDuration 60
        breakCode := (determineBreakRequirement (some 60)).code
        breakRequiredMinutes := (determineBreakRequirement (some 60)).minutes
        breakLabel := (determineBreakRequirement (some 60)).label } := by
  have hminq : (((round (((d.getTime - a.getTime : ℤ) : ℚ) / 60000) : ℤ) : ℚ)) ≤ 0 := by
    have hx : (((d.getTime - a.getTime : ℤ) : ℚ)) / 60000 ≤ 0 := by
      apply div_nonpos_of_nonpos_of_nonneg
      · exact_mod_cast sub_nonpos.mpr hle
      · norm_num
    exact_mod_cast round_nonpos_of_nonpos hx
  have hnorm : ensureFutureDeparture (normStr rec.arrival) (normStr rec.departure) =
      { arrivalIso := formatIsoFromDate a
        departureIso := formatIsoFromDate ⟨a.getTime + 60 * 60000⟩
        minutes := 60 } := by
    simp only [ensureFutureDeparture, hpa, hpd]
    rw [if_pos hminq]
  simp only [processEmployeeRecord, harrne, hdepne, Bool.false_and, Bool.and_false,
    Bool.false_eq_true, if_false]
  rw [hnorm]

/-! ### C3: the zero/negative-duration auto-correction -/

/-- C3 (amended/corrected): when both instants parse and the departure is not
after the arrival (zero or negative rounded duration), the active
`collectEmployeeEntries` auto-corrects the departure to arrival plus **60**
minutes — not 15 — yielding `durationMinutes = 60` (still break tier
`"NONE"`, as 60 <= 360).  The entry is kept, not rejected. -/
theorem collectEmployeeEntries_autocorrect (now : JsDate) (rec : EmployeeRecord)
    (a d : JsDate)
    (hpa : parseLocalDateTime (normStr rec.arrival) = some a)
    (hpd : parseLocalDateTime (normStr rec.departure) = some d)
    (harrne : (normStr rec.arrival).isEmpty = false)
    (hdepne : (normStr rec.departure).isEmpty = false)
    (hle : d.getTime ≤ a.getTime) :
    ∃ e, (collectEmployeeEntries now [rec]).entries = [e] ∧
      e.durationMinutes = 60 ∧ e.breakCode = "NONE" ∧
      e.departure = formatIsoFromDate ⟨a.getTime + 60 * 60000⟩ := by
  have hpe := processEmployeeRecord_autocorrect now 0 rec a d hpa hpd harrne hdepne hle
  have hcode : (determineBreakRequirement (some 60)).code = "NONE" := by
    with_unfolding_all rfl
  have hrw : collectEmployeeEntries now [rec] =
      employeeSummaryStep now
        { entries := [], totalMinutes := 0, totalBreakMinutes := 0
          statNONE := 0, statMIN30 := 0, statMIN45 := 0, statUNKNOWN := 0 } (0, rec) := rfl
  have hentries : (collectEmployeeEntries now [rec]).entries =
      [{ index := 0 + 1
         name := normStr rec.name
         role := normStr rec.role
         arrival := formatIsoFromDate a
         departure := formatIsoFromDate ⟨a.getTime + 60 * 60000⟩
         arrivalDisplay := formatEmployeeDateTime (formatIsoFromDate a)
         departureDisplay :=
           formatEmployeeDateTime (formatIsoFromDate ⟨a.getTime + 60 * 60000⟩)
         durationMinutes := 60
         durationLabel := formatEmployeeDuration 60
         breakCode := (determineBreakRequirement (some 60)).code
         breakRequiredMinutes := (determineBreakRequirement (some 60)).minutes
         breakLabel := (determineBreakRequirement (some 60)).label }] := by
    rw [hrw]
    simp only [employeeSummaryStep, hpe, List.nil_append]
  exact ⟨_, hentries, rfl, hcode, rfl⟩

/-- The ISO-local string "2024-03-10T09:00". -/
def c3Iso : Str :=
  ['2', '0', '2', '4', '-', '0', '3', '-', '1', '0', 'T', '0', '9', ':', '0', '0']

/-- A record with identical arrival and departure (zero duration). -/
def c3Rec : EmployeeRecord :=
  { name := none, role := none, arrival := some c3Iso, departure := some c3Iso }

/-- Witness for C3 (amended) at the concrete 09:00/09:00 record. -/
theorem collectEmployeeEntries_autocorrect_witness :
    (parseLocalDateTime (normStr c3Rec.arrival) = some ⟨1710061200000⟩ ∧
        parseLocalDateTime (normStr c3Rec.departure) = some ⟨1710061200000⟩ ∧
        (normStr c3Rec.arrival).isEmpty = false ∧
        (normStr c3Rec.departure).isEmpty = false ∧
        (⟨1710061200000⟩ : JsDate).getTime ≤ (⟨1710061200000⟩ : JsDate).getTime) ∧
      (∃ e, (collectEmployeeEntries ⟨0⟩ [c3Rec]).entries = [e] ∧
        e.durationMinutes = 60 ∧ e.breakCode = "NONE" ∧
        e.departure =
          formatIsoFromDate ⟨(⟨1710061200000⟩ : JsDate).getTime + 60 * 60000⟩) :=
  ⟨⟨by with_unfolding_all rfl, by with_unfolding_all rfl, by with_unfolding_all rfl,
      by with_unfolding_all rfl, le_refl _⟩,
    collectEmployeeEntries_autocorrect ⟨0⟩ c3Rec ⟨1710061200000⟩ ⟨1710061200000⟩
      (by with_unfolding_all rfl) (by with_unfolding_all rfl)
      (by with_unfolding_all rfl) (by with_unfolding_all rfl) (le_refl _)⟩

/-- Counterexample to C3 as stated: for arrival = departure =
"2024-03-10T09:00", the produced entry has `durationMinutes = 60` (not 15)
and the corrected departure is "2024-03-10T10:00" (arrival + 60 minutes, not
arrival + 15); the break tier is "NONE" as claimed. -/
theorem collectEmployeeEntries_autocorrect_cex :
    ((collectEmployeeEntries ⟨0⟩ [c3Rec]).entries.map fun e => e.durationMinutes) =
        [60] ∧
      ((collectEmployeeEntries ⟨0⟩ [c3Rec]).entries.map fun e => e.departure) =
        [['2', '0', '2', '4', '-', '0', '3', '-', '1', '0', 'T', '1', '0', ':', '0', '0']] ∧
      ((collectEmployeeEntries ⟨0⟩ [c3Rec]).entries.map fun e => e.breakCode) =
        ["NONE"] ∧
      ((collectEmployeeEntries ⟨0⟩ [c3Rec]).entries.map fun e => e.durationMinutes) ≠
        [15] ∧
      ((collectEmployeeEntries ⟨0⟩ [c3Rec]).entries.map fun e => e.departure) ≠
        [['2', '0', '2', '4', '-', '0', '3', '-', '1', '0', 'T', '0', '9', ':', '1', '5']] := by
  have h1 : ((collectEmployeeEntries ⟨0⟩ [c3Rec]).entries.map
      fun e => e.durationMinutes) = [60] := by with_unfolding_all rfl
  have h2 : ((collectEmployeeEntries ⟨0⟩ [c3Rec]).entries.map fun e => e.departure) =
      [['2', '0', '2', '4', '-', '0', '3', '-', '1', '0', 'T', '1', '0', ':', '0', '0']] := by
    with_unfolding_all rfl
  have h3 : ((collectEmployeeEntries ⟨0⟩ [c3Rec]).entries.map fun e => e.breakCode) =
      ["NONE"] := by with_unfolding_all rfl
  refine ⟨h1, h2, h3, ?_, ?_⟩
  · rw [h1]
    intro habs
    injection habs with h _
    exact absurd h (by norm_num)
  · rw [h2]
    intro habs
    injection habs with h _
    exact absurd h (by decide)

end PdfGen
